import Mathlib

/-!
Verification development for a Minesweeper-playing agent.

The agent keeps a knowledge base of logical sentences "exactly `count` of
`cells` are mines", ingests observations (`add_knowledge`), runs a fixpoint
inference loop (`update_knowledge`: fact extraction, subset-subtraction
inference, deduplication, and garbage collection of emptied sentences), and
offers two move-selection queries (`make_safe_move`, `make_random_move`).

The definitions below are a shallow embedding of the source.  Python sets of
coordinate pairs become `Finset Cell`, Python ints become `ℤ`, the knowledge
list stays a `List Sentence`, and the unbounded `while updated` loop is
modelled with explicit fuel (`updateLoopT` returns `none` when the fuel is
exhausted before the loop exits, `some` of the final state otherwise).
Iteration over a Python set is modelled by folding over `Finset.toList`; the
per-cell marking operations commute, so any enumeration order yields the same
state, which the fold lemmas below make explicit.
-/

/-- A board cell: an ordered pair of integer coordinates `(row, col)`. -/
abbrev Cell : Type := ℤ × ℤ

/-- `Sentence cells count`: the logical statement that exactly `count` of the
cells in `cells` are mines (class `Sentence` in the source; equality is
structural on both fields, matching `Sentence.__eq__`). -/
structure Sentence where
  cells : Finset Cell
  count : ℤ
  deriving DecidableEq

/-- `Sentence.known_mines`: the whole cell set when `len(cells) == count != 0`,
else empty. -/
def Sentence.known_mines (s : Sentence) : Finset Cell :=
  if (s.cells.card : ℤ) = s.count ∧ s.count ≠ 0 then s.cells else ∅

/-- `Sentence.known_safes`: the whole cell set when `count == 0`, else empty. -/
def Sentence.known_safes (s : Sentence) : Finset Cell :=
  if s.count = 0 then s.cells else ∅

/-- `Sentence.mark_mine`: if `cell ∈ cells`, remove it and decrement `count`. -/
def Sentence.mark_mine (c : Cell) (s : Sentence) : Sentence :=
  if c ∈ s.cells then ⟨s.cells.erase c, s.count - 1⟩ else s

/-- `Sentence.mark_safe`: if `cell ∈ cells`, remove it (`count` unchanged). -/
def Sentence.mark_safe (c : Cell) (s : Sentence) : Sentence :=
  if c ∈ s.cells then ⟨s.cells.erase c, s.count⟩ else s

/-- The state of `MinesweeperAI`: grid dimensions, the moves made, the proven
mines and safes, and the list of live sentences (`self.knowledge`). -/
structure AIState where
  height : ℤ
  width : ℤ
  moves_made : Finset Cell
  mines : Finset Cell
  safes : Finset Cell
  knowledge : List Sentence
  deriving DecidableEq

/-- `MinesweeperAI.mark_mine`: add the cell to `mines` and mark it in every
stored sentence. -/
def aiMarkMine (c : Cell) (st : AIState) : AIState :=
  { st with mines := insert c st.mines,
            knowledge := st.knowledge.map (Sentence.mark_mine c) }

/-- `MinesweeperAI.mark_safe`: add the cell to `safes` and mark it in every
stored sentence. -/
def aiMarkSafe (c : Cell) (st : AIState) : AIState :=
  { st with safes := insert c st.safes,
            knowledge := st.knowledge.map (Sentence.mark_safe c) }

/-- The union `safes |= sentence.known_safes()` over the knowledge list. -/
def extractSafes (K : List Sentence) : Finset Cell :=
  K.foldr (fun s acc => s.known_safes ∪ acc) ∅

/-- The union `mines |= sentence.known_mines()` over the knowledge list. -/
def extractMines (K : List Sentence) : Finset Cell :=
  K.foldr (fun s acc => s.known_mines ∪ acc) ∅

/-- The sentence derived by subset subtraction from `s1 ⊆ s2`:
`Sentence(s2.cells - s1.cells, s2.count - s1.count)`. -/
def diffSentence (s1 s2 : Sentence) : Sentence :=
  ⟨s2.cells \ s1.cells, s2.count - s1.count⟩

/-- Inner loop of the subset-inference pass (`for s2 in self.knowledge`):
skip when `s1 == s2` or either cell set is empty; when `s1.cells ⊆ s2.cells`
append the derived sentence unless it is already in the knowledge list `K` or
in the accumulated `new_inferences`. -/
def inferInner (K : List Sentence) (s1 : Sentence) :
    List Sentence → List Sentence → List Sentence
  | [], acc => acc
  | s2 :: rest, acc =>
    inferInner K s1 rest
      (if s1 = s2 ∨ s1.cells = ∅ ∨ s2.cells = ∅ then acc
       else if s1.cells ⊆ s2.cells then
         (if diffSentence s1 s2 ∉ K ∧ diffSentence s1 s2 ∉ acc then
            acc ++ [diffSentence s1 s2]
          else acc)
       else acc)

/-- Outer loop of the subset-inference pass (`for s1 in self.knowledge`). -/
def inferOuter (K : List Sentence) : List Sentence → List Sentence → List Sentence
  | [], acc => acc
  | s1 :: rest, acc => inferOuter K rest (inferInner K s1 K acc)

/-- The `new_inferences` list computed by one round of `update_knowledge`. -/
def inferStep (K : List Sentence) : List Sentence :=
  inferOuter K K []

/-- Marking every cell of a set safe (`for cell in safes: self.mark_safe(cell)`).
The per-cell `aiMarkSafe` operations commute, so iterating the Python set in
any order yields this closed form; the lemma `foldl_aiMarkSafe` below proves
the agreement with the per-cell fold over any duplicate-free enumeration. -/
def markSafes (sf : Finset Cell) (st : AIState) : AIState :=
  { st with safes := st.safes ∪ sf,
            knowledge := st.knowledge.map fun s => ⟨s.cells \ sf, s.count⟩ }

/-- Marking every cell of a set as a mine (`for cell in mines:
self.mark_mine(cell)`); each removed cell that was present decrements the
count, so the closed form subtracts the size of the overlap.  The lemma
`foldl_aiMarkMine` below proves the agreement with the per-cell fold over any
duplicate-free enumeration. -/
def markMines (mf : Finset Cell) (st : AIState) : AIState :=
  { st with mines := st.mines ∪ mf,
            knowledge := st.knowledge.map fun s =>
              ⟨s.cells \ mf, s.count - ((s.cells ∩ mf).card : ℤ)⟩ }

/-- The marking phase of one round of `update_knowledge`: extract the
known-safe and known-mine cells over all sentences, mark the safes, then
mark the mines (the source runs the safes loop first). -/
def postMark (st : AIState) : AIState :=
  markMines (extractMines st.knowledge) (markSafes (extractSafes st.knowledge) st)

/-- The `new_inferences` of one round, computed on the post-marking state. -/
def roundInfer (st : AIState) : List Sentence :=
  inferStep (postMark st).knowledge

/-- One full round of the `while updated` loop in `update_knowledge`:
marking phase, subset inference, extend, and drop empty sentences. -/
def roundStep (st : AIState) : AIState :=
  let st2 := postMark st
  { st2 with
    knowledge := (st2.knowledge ++ roundInfer st).filter
      (fun s => decide (s.cells ≠ ∅)) }

/-- Whether one round of `update_knowledge` sets the `updated` flag: some
safe or mine cell was extracted, or some new inference was appended. -/
def roundChanged (st : AIState) : Prop :=
  extractSafes st.knowledge ≠ ∅ ∨ extractMines st.knowledge ≠ ∅ ∨ roundInfer st ≠ []

instance (st : AIState) : Decidable (roundChanged st) :=
  inferInstanceAs (Decidable (extractSafes st.knowledge ≠ ∅ ∨
    extractMines st.knowledge ≠ ∅ ∨ roundInfer st ≠ []))

/-- `update_knowledge` with explicit fuel: runs rounds while `updated`, and
returns the state after the first unchanged round; `none` when the fuel ran
out before the loop exited (the source loop has no bound of its own). -/
def updateLoopT : Nat → AIState → Option AIState
  | 0, _ => none
  | n + 1, st =>
    if roundChanged st then updateLoopT n (roundStep st) else some (roundStep st)

/-- The eight neighbor offsets scanned by `add_knowledge`
(`di, dj ∈ {-1,0,1}`, skipping `(0,0)`), in loop order. -/
def deltas : List (ℤ × ℤ) :=
  [(-1, -1), (-1, 0), (-1, 1), (0, -1), (0, 1), (1, -1), (1, 0), (1, 1)]

/-- One iteration of the neighbor scan in `add_knowledge`: bounds check, then
`if neighbor in self.mines: count -= 1 elif neighbor not in self.safes:
neighbors.add(neighbor)`. -/
def nbrStep (st : AIState) (cell : Cell) (acc : Finset Cell × ℤ) (d : ℤ × ℤ) :
    Finset Cell × ℤ :=
  let n : Cell := (cell.1 + d.1, cell.2 + d.2)
  if 0 ≤ n.1 ∧ n.1 < st.height ∧ 0 ≤ n.2 ∧ n.2 < st.width then
    (if n ∈ st.mines then (acc.1, acc.2 - 1)
     else if n ∈ st.safes then acc
     else (insert n acc.1, acc.2))
  else acc

/-- The sentence `Sentence(neighbors, count)` built by the neighbor scan of
`add_knowledge`, starting from the empty set and the reported count. -/
def observedSentence (st : AIState) (cell : Cell) (count : ℤ) : Sentence :=
  let r := deltas.foldl (nbrStep st cell) (∅, count)
  ⟨r.1, r.2⟩

/-- Append a sentence to the knowledge list only when no structurally equal
sentence is present (`if new_sentence not in self.knowledge: append`). -/
def insertSentence (K : List Sentence) (ns : Sentence) : List Sentence :=
  if ns ∈ K then K else K ++ [ns]

/-- The sentence that `add_knowledge cell count` submits for insertion; note
the source marks `cell` safe before scanning neighbors. -/
def addObservedSentence (st : AIState) (cell : Cell) (count : ℤ) : Sentence :=
  observedSentence (aiMarkSafe cell { st with moves_made := insert cell st.moves_made })
    cell count

/-- The state right before `update_knowledge` runs inside `add_knowledge`:
record the move, mark the cell safe, and insert the new sentence. -/
def addObserved (st : AIState) (cell : Cell) (count : ℤ) : AIState :=
  let st1 := aiMarkSafe cell { st with moves_made := insert cell st.moves_made }
  { st1 with knowledge := insertSentence st1.knowledge (addObservedSentence st cell count) }

/-- `add_knowledge` with explicit fuel for the final `update_knowledge` call. -/
def addKnowledge (fuel : Nat) (cell : Cell) (count : ℤ) (st : AIState) : Option AIState :=
  updateLoopT fuel (addObserved st cell count)

/-- `make_safe_move`: the first cell of `safes` not yet played, else `None`.
Python iterates the set `self.safes` in an unspecified order; the parameter
`order` stands for that enumeration. -/
def makeSafeMove (order : List Cell) (st : AIState) : Option Cell :=
  order.find? (fun m => decide (m ∉ st.moves_made))

/-- `make_safe_move` seen as a state transformer: the source mutates nothing,
so the embedded transformer returns the state it was given. -/
def makeSafeMoveS (order : List Cell) (st : AIState) : Option Cell × AIState :=
  (makeSafeMove order st, st)

/-- The `choices` list comprehension of `make_random_move`: all in-bounds
cells, in row-major order, that are neither played nor known mines. -/
def randomChoices (st : AIState) : List Cell :=
  (List.range st.height.toNat).flatMap fun (i : ℕ) =>
    (List.range st.width.toNat).filterMap fun (j : ℕ) =>
      if ((i : ℤ), (j : ℤ)) ∉ st.moves_made ∧ ((i : ℤ), (j : ℤ)) ∉ st.mines
      then some ((i : ℤ), (j : ℤ)) else none

/-- `make_random_move`: `random.choice(choices)` when `choices` is nonempty,
else `None`; the random draw is modelled by an arbitrary selector index `k`. -/
def makeRandomMove (k : Nat) (st : AIState) : Option Cell :=
  if (randomChoices st).isEmpty then none
  else (randomChoices st)[k % (randomChoices st).length]?

/-- `make_random_move` as a state transformer: the source mutates nothing. -/
def makeRandomMoveS (k : Nat) (st : AIState) : Option Cell × AIState :=
  (makeRandomMove k st, st)

/-- The freshly constructed agent (`MinesweeperAI.__init__`). -/
def initState (h w : ℤ) : AIState := ⟨h, w, ∅, ∅, ∅, []⟩

/-- All in-bounds cells of an `h × w` grid. -/
def gridCells (h w : ℤ) : Finset Cell :=
  Finset.Icc 0 (h - 1) ×ˢ Finset.Icc 0 (w - 1)

/-- The in-bounds 8-neighborhood of a cell. -/
def inbounds8 (h w : ℤ) (cell : Cell) : Finset Cell :=
  (deltas.map fun d => ((cell.1 + d.1, cell.2 + d.2) : Cell)).toFinset.filter
    fun n => 0 ≤ n.1 ∧ n.1 < h ∧ 0 ≤ n.2 ∧ n.2 < w

/-- A sentence is true of a board whose mine set is `M` when its count equals
the number of its cells that are mines of `M`. -/
def SentTrue (M : Finset Cell) (s : Sentence) : Prop :=
  ((s.cells ∩ M).card : ℤ) = s.count

/-- Consistency of the knowledge base with a board `M`: every stored sentence
is true of `M`, every proven safe is not a mine of `M`, and every proven mine
is a mine of `M`. -/
def KBConsistent (M : Finset Cell) (st : AIState) : Prop :=
  (∀ s ∈ st.knowledge, SentTrue M s) ∧
  (∀ c ∈ st.safes, c ∉ M) ∧ (∀ c ∈ st.mines, c ∈ M)

instance (M : Finset Cell) (s : Sentence) : Decidable (SentTrue M s) :=
  inferInstanceAs (Decidable (((s.cells ∩ M).card : ℤ) = s.count))

instance (M : Finset Cell) (st : AIState) : Decidable (KBConsistent M st) :=
  inferInstanceAs (Decidable ((∀ s ∈ st.knowledge, SentTrue M s) ∧
    (∀ c ∈ st.safes, c ∉ M) ∧ (∀ c ∈ st.mines, c ∈ M)))

/-- Domain invariant: every sentence lives over in-bounds cells none of which
is already proven safe or mine. -/
def KBDomOk (st : AIState) : Prop :=
  ∀ s ∈ st.knowledge, s.cells ⊆ gridCells st.height st.width ∧
    ∀ c ∈ s.cells, c ∉ st.safes ∧ c ∉ st.mines

/-- States reachable from a fresh agent by observations that respect the
driver contract for the board `M`: each probed cell is in bounds, is not a
mine, and the reported count is the true number of mines among its in-bounds
8-neighbors; each `add_knowledge` call runs its propagation to completion. -/
inductive Reachable (M : Finset Cell) : AIState → Prop
  | init (h w : ℤ) : Reachable M (initState h w)
  | step (st st' : AIState) (fuel : Nat) (cell : Cell) (count : ℤ)
      (hr : Reachable M st)
      (hin : cell ∈ gridCells st.height st.width)
      (hnm : cell ∉ M)
      (hc : count = ((inbounds8 st.height st.width cell ∩ M).card : ℤ))
      (hadd : addKnowledge fuel cell count st = some st') :
      Reachable M st'

/-- All sentences true of `M` over a nonempty in-bounds cell set: the finite
universe of subset-derivable constraints for a consistent run. -/
def Universe (M : Finset Cell) (h w : ℤ) : Finset Sentence :=
  ((gridCells h w).powerset.filter fun t => t ≠ ∅).image
    fun t => ⟨t, ((t ∩ M).card : ℤ)⟩

/-- The number of grid cells not yet proven safe or mine. -/
def unmarkedCard (st : AIState) : ℕ :=
  ((gridCells st.height st.width) \ (st.safes ∪ st.mines)).card

/-- A sentence value is dead in a state when one of its cells is already
proven safe or mine: such a value can never be derived again. -/
def DeadIn (st : AIState) (v : Sentence) : Prop :=
  ∃ c ∈ v.cells, c ∈ st.safes ∨ c ∈ st.mines

/-- Ghost invariant for the termination bound: `V` collects the sentence
values of the universe seen so far; every live universe sentence of the
knowledge list is in `V`, and every member of `V` is either still stored or
dead. -/
def SeenInv (M : Finset Cell) (st : AIState) (V : Finset Sentence) : Prop :=
  V ⊆ Universe M st.height st.width ∧
  (∀ s ∈ st.knowledge, s ∈ Universe M st.height st.width → s ∈ V) ∧
  (∀ v ∈ V, v ∈ st.knowledge ∨ DeadIn st v)

/-- The combined effect of the marking phase on one stored sentence: safe
cells are erased, then mine cells are erased with the count decremented once
per erased mine cell that was present. -/
def shrinkS (sf mf : Finset Cell) (s : Sentence) : Sentence :=
  ⟨(s.cells \ sf) \ mf, s.count - (((s.cells \ sf) ∩ mf).card : ℤ)⟩

/-- Cell names for the concrete scenarios below. -/
def cA : Cell := (0, 0)

def cB : Cell := (0, 1)

def cC : Cell := (0, 2)

def cD : Cell := (1, 0)

/-- Spec scenario for subset subtraction: the knowledge base holds exactly
`({A,B,C}, 2)` and `({A,B}, 1)`. -/
def stC1 : AIState := ⟨3, 3, ∅, ∅, ∅, [⟨{cA, cB, cC}, 2⟩, ⟨{cA, cB}, 1⟩]⟩

/-- The state `propagate()` reaches from `stC1`: cell `C` is a proven mine. -/
def stC1Final : AIState := ⟨3, 3, ∅, {cC}, ∅, [⟨{cA, cB}, 1⟩, ⟨{cA, cB}, 1⟩]⟩

/-- An inconsistent knowledge base: `({A}, 0)` and `({A}, 1)` together. -/
def stC2 : AIState := ⟨3, 3, ∅, ∅, ∅, [⟨{cA}, 0⟩, ⟨{cA}, 1⟩]⟩

/-- The state `propagate()` reaches from `stC2`: `A` is marked both safe and
mine. -/
def stC2Final : AIState := ⟨3, 3, ∅, {cA}, {cA}, []⟩

/-- A knowledge base from which subset subtraction derives a sentence with a
negative count. -/
def stC3 : AIState := ⟨3, 3, ∅, ∅, ∅, [⟨{cA, cB, cC}, 1⟩, ⟨{cA, cB}, 3⟩]⟩

/-- The state `propagate()` reaches from `stC3`: `({C}, -2)` is stored. -/
def stC3Final : AIState :=
  ⟨3, 3, ∅, ∅, ∅, [⟨{cA, cB, cC}, 1⟩, ⟨{cA, cB}, 3⟩, ⟨{cC}, -2⟩]⟩

/-- The state `add_knowledge((0,0), 99)` reaches from a fresh 2×2 agent: the
stored sentence's count exceeds its cell-set size, and no fault is raised. -/
def stC3AddFinal : AIState :=
  ⟨2, 2, {((0 : ℤ), (0 : ℤ))}, ∅, {((0 : ℤ), (0 : ℤ))},
    [⟨{((1 : ℤ), (1 : ℤ)), ((1 : ℤ), (0 : ℤ)), ((0 : ℤ), (1 : ℤ))}, 99⟩]⟩

/-- A knowledge base on which propagation shrinks two distinct sentences to
the same value: `({A,B,C},1)`, `({A,B,D},1)` and `({C},0)`. -/
def stC9 : AIState := ⟨3, 3, ∅, ∅, ∅, [⟨{cA, cB, cC}, 1⟩, ⟨{cA, cB, cD}, 1⟩, ⟨{cC}, 0⟩]⟩

/-- The state `propagate()` reaches from `stC9`: the sentence `({A,B},1)` is
stored twice. -/
def stC9Final : AIState := ⟨3, 3, ∅, ∅, {cC, cD}, [⟨{cA, cB}, 1⟩, ⟨{cA, cB}, 1⟩]⟩

/-- Spec scenario for `make_random_move`: a 6×6 grid where every cell except
`(5,5)` has been played and no mines are known. -/
def stC8 : AIState := ⟨6, 6, (gridCells 6 6).erase ((5 : ℤ), (5 : ℤ)), ∅, ∅, []⟩

/-! ### Basic lemmas about the embedded operations -/

theorem Sentence.mark_safe_eq (c : Cell) (s : Sentence) :
    Sentence.mark_safe c s = ⟨s.cells.erase c, s.count⟩ := by
  unfold Sentence.mark_safe
  split
  · rfl
  · rename_i h
    cases s with
    | mk cl ct => simp [Finset.erase_eq_of_not_mem h]

theorem Sentence.mark_mine_eq (c : Cell) (s : Sentence) :
    Sentence.mark_mine c s =
      ⟨s.cells.erase c, if c ∈ s.cells then s.count - 1 else s.count⟩ := by
  unfold Sentence.mark_mine
  split
  · rename_i h
    simp [h]
  · rename_i h
    cases s with
    | mk cl ct => simp [Finset.erase_eq_of_not_mem h, h]

/-- Folding the per-cell `aiMarkSafe` over any enumeration of a set of cells
agrees with the closed-form `markSafes`, so the Python set-iteration order is
irrelevant. -/
theorem foldl_aiMarkSafe (l : List Cell) (st : AIState) :
    l.foldl (fun t c => aiMarkSafe c t) st = markSafes l.toFinset st := by
  induction l generalizing st with
  | nil =>
    cases st with
    | mk h w mo mi sa K =>
      simp [markSafes, List.map_id'']
  | cons c l ih =>
    rw [List.foldl_cons, ih]
    cases st with
    | mk h w mo mi sa K =>
      simp only [markSafes, aiMarkSafe, List.toFinset_cons, List.map_map]
      refine AIState.mk.injEq .. ▸ ⟨rfl, rfl, rfl, rfl, ?_, ?_⟩
      · simp [Finset.insert_union, Finset.union_insert]
      · apply List.map_congr_left
        intro s _
        simp [Function.comp, Sentence.mark_safe_eq, Finset.erase_eq,
          sdiff_sdiff, Finset.insert_eq]

/-- Folding the per-cell `aiMarkMine` over any duplicate-free enumeration of
a set of cells agrees with the closed-form `markMines`. -/
theorem foldl_aiMarkMine (l : List Cell) (hl : l.Nodup) (st : AIState) :
    l.foldl (fun t c => aiMarkMine c t) st = markMines l.toFinset st := by
  induction l generalizing st with
  | nil =>
    cases st with
    | mk h w mo mi sa K =>
      simp [markMines, List.map_id'']
  | cons c l ih =>
    obtain ⟨hc, hl⟩ := List.nodup_cons.mp hl
    rw [List.foldl_cons, ih hl]
    cases st with
    | mk h w mo mi sa K =>
      simp only [markMines, aiMarkMine, List.toFinset_cons, List.map_map]
      refine AIState.mk.injEq .. ▸ ⟨rfl, rfl, rfl, ?_, rfl, ?_⟩
      · simp [Finset.insert_union, Finset.union_insert]
      · apply List.map_congr_left
        intro s _
        have hcl : c ∉ l.toFinset := by simpa using hc
        simp only [Function.comp, Sentence.mark_mine_eq]
        have hcells : (s.cells.erase c) \ l.toFinset = s.cells \ insert c l.toFinset := by
          simp [Finset.erase_eq, sdiff_sdiff, Finset.insert_eq]
        have hinter : (s.cells.erase c) ∩ l.toFinset = s.cells ∩ l.toFinset := by
          ext x
          simp only [Finset.mem_inter, Finset.mem_erase]
          exact ⟨fun hx => ⟨hx.1.2, hx.2⟩,
            fun hx => ⟨⟨fun he => hcl (he ▸ hx.2), hx.1⟩, hx.2⟩⟩
        have hcard : (s.cells ∩ insert c l.toFinset).card =
            (s.cells ∩ l.toFinset).card + (if c ∈ s.cells then 1 else 0) := by
          by_cases hcs : c ∈ s.cells
          · rw [Finset.inter_comm, Finset.insert_inter_of_mem hcs, Finset.inter_comm]
            rw [Finset.card_insert_of_not_mem (by simp [hcl])]
            simp [hcs]
          · rw [Finset.inter_comm, Finset.insert_inter_of_not_mem hcs, Finset.inter_comm]
            simp [hcs]
        refine Sentence.mk.injEq .. ▸ ⟨hcells, ?_⟩
        rw [hinter, hcard]
        by_cases hcs : c ∈ s.cells <;> (simp [hcs]; try omega)

theorem postMark_eq (st : AIState) :
    postMark st =
      { st with
        safes := st.safes ∪ extractSafes st.knowledge,
        mines := st.mines ∪ extractMines st.knowledge,
        knowledge := st.knowledge.map
          (shrinkS (extractSafes st.knowledge) (extractMines st.knowledge)) } := by
  cases st with
  | mk h w mo mi sa K =>
    simp only [postMark, markMines, markSafes, List.map_map]
    refine AIState.mk.injEq .. ▸ ⟨rfl, rfl, rfl, rfl, rfl, ?_⟩
    apply List.map_congr_left
    intro s _
    rfl

theorem roundStep_eq (st : AIState) :
    roundStep st =
      { postMark st with
        knowledge := ((postMark st).knowledge ++ roundInfer st).filter
          (fun s => decide (s.cells ≠ ∅)) } := rfl

theorem mem_known_safes {s : Sentence} {c : Cell} :
    c ∈ s.known_safes ↔ s.count = 0 ∧ c ∈ s.cells := by
  unfold Sentence.known_safes
  split <;> rename_i h <;> simp [h]

theorem mem_known_mines {s : Sentence} {c : Cell} :
    c ∈ s.known_mines ↔ ((s.cells.card : ℤ) = s.count ∧ s.count ≠ 0) ∧ c ∈ s.cells := by
  unfold Sentence.known_mines
  split <;> rename_i h <;> simp [h]

theorem mem_extractSafes {K : List Sentence} {c : Cell} :
    c ∈ extractSafes K ↔ ∃ s ∈ K, c ∈ s.known_safes := by
  induction K with
  | nil => simp [extractSafes]
  | cons s K ih => simp [extractSafes, List.foldr_cons] at ih ⊢; rw [ih]

theorem mem_extractMines {K : List Sentence} {c : Cell} :
    c ∈ extractMines K ↔ ∃ s ∈ K, c ∈ s.known_mines := by
  induction K with
  | nil => simp [extractMines]
  | cons s K ih => simp [extractMines, List.foldr_cons] at ih ⊢; rw [ih]

/-! ### Lemmas about the subset-inference pass -/

theorem inferInner_sub {K : List Sentence} {s1 : Sentence} {l acc : List Sentence}
    {x : Sentence} (hx : x ∈ acc) : x ∈ inferInner K s1 l acc := by
  induction l generalizing acc with
  | nil => simpa [inferInner] using hx
  | cons s2 rest ih =>
    rw [inferInner]
    apply ih
    split
    · exact hx
    · split
      · split
        · exact List.mem_append_left _ hx
        · exact hx
      · exact hx

theorem inferOuter_sub {K : List Sentence} {l acc : List Sentence}
    {x : Sentence} (hx : x ∈ acc) : x ∈ inferOuter K l acc := by
  induction l generalizing acc with
  | nil => simpa [inferOuter] using hx
  | cons s1 rest ih => exact ih (inferInner_sub hx)

theorem inferInner_mem {K : List Sentence} {s1 : Sentence} {l acc : List Sentence}
    {x : Sentence} (hx : x ∈ inferInner K s1 l acc) :
    x ∈ acc ∨ (x ∉ K ∧ ∃ s2 ∈ l, s1 ≠ s2 ∧ s1.cells ≠ ∅ ∧ s2.cells ≠ ∅ ∧
      s1.cells ⊆ s2.cells ∧ x = diffSentence s1 s2) := by
  induction l generalizing acc with
  | nil => left; simpa [inferInner] using hx
  | cons s2 rest ih =>
    rw [inferInner] at hx
    rcases ih hx with h | ⟨hxk, s2', hs2', hrest⟩
    · split at h
      · exact Or.inl h
      · rename_i hskip
        push_neg at hskip
        split at h
        · rename_i hsub
          split at h
          · rename_i hnew
            rcases List.mem_append.mp h with h | h
            · exact Or.inl h
            · right
              refine ⟨?_, s2, List.mem_cons_self .., hskip.1, hskip.2.1, hskip.2.2, hsub, ?_⟩
              · simpa using (List.mem_singleton.mp h) ▸ hnew.1
              · simpa using List.mem_singleton.mp h
          · exact Or.inl h
        · exact Or.inl h
    · exact Or.inr ⟨hxk, s2', List.mem_cons_of_mem _ hs2', hrest⟩

theorem inferOuter_mem {K : List Sentence} {l acc : List Sentence}
    {x : Sentence} (hx : x ∈ inferOuter K l acc) :
    x ∈ acc ∨ (x ∉ K ∧ ∃ s1 ∈ l, ∃ s2 ∈ K, s1 ≠ s2 ∧ s1.cells ≠ ∅ ∧ s2.cells ≠ ∅ ∧
      s1.cells ⊆ s2.cells ∧ x = diffSentence s1 s2) := by
  induction l generalizing acc with
  | nil => left; simpa [inferOuter] using hx
  | cons s1 rest ih =>
    rw [inferOuter] at hx
    rcases ih hx with h | ⟨hxk, s1', hs1', hrest⟩
    · rcases inferInner_mem h with h | ⟨hxk, s2, hs2, hrest⟩
      · exact Or.inl h
      · exact Or.inr ⟨hxk, s1, List.mem_cons_self .., s2, hs2, hrest⟩
    · exact Or.inr ⟨hxk, s1', List.mem_cons_of_mem _ hs1', hrest⟩

/-- Every member of `new_inferences` is absent from the knowledge list and is
the subset-subtraction of an ordered pair of stored sentences passing the
guards of the source loop. -/
theorem inferStep_mem {K : List Sentence} {x : Sentence} (hx : x ∈ inferStep K) :
    x ∉ K ∧ ∃ s1 ∈ K, ∃ s2 ∈ K, s1 ≠ s2 ∧ s1.cells ≠ ∅ ∧ s2.cells ≠ ∅ ∧
      s1.cells ⊆ s2.cells ∧ x = diffSentence s1 s2 := by
  rcases inferOuter_mem (show x ∈ inferOuter K K [] from hx) with h | h
  · cases h
  · exact h

theorem inferInner_derives {K : List Sentence} {s1 s2 : Sentence} {l acc : List Sentence}
    (h2 : s2 ∈ l) (hne : s1 ≠ s2) (h1e : s1.cells ≠ ∅) (h2e : s2.cells ≠ ∅)
    (hsub : s1.cells ⊆ s2.cells) :
    diffSentence s1 s2 ∈ K ∨ diffSentence s1 s2 ∈ inferInner K s1 l acc := by
  induction l generalizing acc with
  | nil => cases h2
  | cons a rest ih =>
    rcases List.mem_cons.mp h2 with rfl | h2
    · rw [inferInner]
      by_cases hk : diffSentence s1 s2 ∈ K
      · exact Or.inl hk
      · right
        rw [if_neg (by simp [hne, h1e, h2e]), if_pos hsub]
        by_cases hacc : diffSentence s1 s2 ∈ acc
        · rw [if_neg (by simp [hacc])]
          exact inferInner_sub hacc
        · rw [if_pos ⟨hk, hacc⟩]
          exact inferInner_sub (List.mem_append_right _ (List.mem_singleton_self _))
    · rw [inferInner]
      exact ih h2

theorem inferOuter_derives {K : List Sentence} {s1 s2 : Sentence} {l acc : List Sentence}
    (h1 : s1 ∈ l) (h2 : s2 ∈ K) (hne : s1 ≠ s2) (h1e : s1.cells ≠ ∅)
    (h2e : s2.cells ≠ ∅) (hsub : s1.cells ⊆ s2.cells) :
    diffSentence s1 s2 ∈ K ∨ diffSentence s1 s2 ∈ inferOuter K l acc := by
  induction l generalizing acc with
  | nil => cases h1
  | cons a rest ih =>
    rcases List.mem_cons.mp h1 with rfl | h1
    · rw [inferOuter]
      rcases (inferInner_derives h2 hne h1e h2e hsub :
          diffSentence s1 s2 ∈ K ∨ diffSentence s1 s2 ∈ inferInner K s1 K acc) with h | h
      · exact Or.inl h
      · exact Or.inr (inferOuter_sub h)
    · rw [inferOuter]
      exact ih h1

/-- The subset-inference pass derives the subtraction sentence of every
guarded pair: it ends up in the knowledge list or among the new inferences. -/
theorem infer_derives {K : List Sentence} {s1 s2 : Sentence}
    (h1 : s1 ∈ K) (h2 : s2 ∈ K) (hne : s1 ≠ s2) (h1e : s1.cells ≠ ∅)
    (h2e : s2.cells ≠ ∅) (hsub : s1.cells ⊆ s2.cells) :
    diffSentence s1 s2 ∈ K ∨ diffSentence s1 s2 ∈ inferStep K :=
  inferOuter_derives h1 h2 hne h1e h2e hsub

theorem inferInner_nodup {K : List Sentence} {s1 : Sentence} {l acc : List Sentence}
    (hacc : acc.Nodup) : (inferInner K s1 l acc).Nodup := by
  induction l generalizing acc with
  | nil => simpa [inferInner] using hacc
  | cons s2 rest ih =>
    rw [inferInner]
    apply ih
    split
    · exact hacc
    · split
      · split
        · rename_i hnew
          simpa [List.nodup_append, hacc] using hnew.2
        · exact hacc
      · exact hacc

theorem inferOuter_nodup {K : List Sentence} {l acc : List Sentence}
    (hacc : acc.Nodup) : (inferOuter K l acc).Nodup := by
  induction l generalizing acc with
  | nil => simpa [inferOuter] using hacc
  | cons s1 rest ih =>
    rw [inferOuter]
    exact ih (inferInner_nodup hacc)

/-- The `new_inferences` list of one pass is duplicate-free. -/
theorem inferStep_nodup (K : List Sentence) : (inferStep K).Nodup :=
  inferOuter_nodup List.nodup_nil

/-! ### The neighbor scan of `add_knowledge` -/

theorem shifted_nodup (cell : Cell) :
    ((deltas.map fun d => ((cell.1 + d.1, cell.2 + d.2) : Cell))).Nodup := by
  refine List.Nodup.map ?_ (by decide)
  intro d1 d2 hd
  have h1 : cell.1 + d1.1 = cell.1 + d2.1 := congrArg Prod.fst hd
  have h2 : cell.2 + d1.2 = cell.2 + d2.2 := congrArg Prod.snd hd
  have : d1.1 = d2.1 := by omega
  have : d1.2 = d2.2 := by omega
  exact Prod.ext (by omega) (by omega)

theorem self_not_mem_shifted (cell : Cell) :
    cell ∉ (deltas.map fun d => ((cell.1 + d.1, cell.2 + d.2) : Cell)) := by
  intro h
  rcases List.mem_map.mp h with ⟨d, hd, he⟩
  have h1 : cell.1 + d.1 = cell.1 := congrArg Prod.fst he
  have h2 : cell.2 + d.2 = cell.2 := congrArg Prod.snd he
  have hd1 : d.1 = 0 := by omega
  have hd2 : d.2 = 0 := by omega
  have : d = ((0 : ℤ), (0 : ℤ)) := Prod.ext hd1 hd2
  rw [this] at hd
  revert hd
  decide

/-- Closed form of the neighbor scan: folding `nbrStep` over a delta list
with pairwise-distinct shifted cells accumulates exactly the in-bounds
unknown neighbors and decrements the count once per in-bounds known mine. -/
theorem nbr_foldl (st : AIState) (cell : Cell) (ds : List (ℤ × ℤ))
    (A : Finset Cell) (c0 : ℤ)
    (hnd : (ds.map fun d => ((cell.1 + d.1, cell.2 + d.2) : Cell)).Nodup) :
    ds.foldl (nbrStep st cell) (A, c0) =
      (A ∪ ((ds.map fun d => ((cell.1 + d.1, cell.2 + d.2) : Cell)).toFinset.filter fun n =>
            (0 ≤ n.1 ∧ n.1 < st.height ∧ 0 ≤ n.2 ∧ n.2 < st.width) ∧
            n ∉ st.mines ∧ n ∉ st.safes),
       c0 - (((ds.map fun d => ((cell.1 + d.1, cell.2 + d.2) : Cell)).toFinset.filter fun n =>
            (0 ≤ n.1 ∧ n.1 < st.height ∧ 0 ≤ n.2 ∧ n.2 < st.width) ∧
            n ∈ st.mines).card : ℤ)) := by
  induction ds generalizing A c0 with
  | nil => simp
  | cons d ds ih =>
    rw [List.map_cons, List.nodup_cons] at hnd
    obtain ⟨hn, hnd⟩ := hnd
    have hnT : ((cell.1 + d.1, cell.2 + d.2) : Cell) ∉
        (ds.map fun d => ((cell.1 + d.1, cell.2 + d.2) : Cell)).toFinset := by
      simpa using hn
    rw [List.foldl_cons, List.map_cons, List.toFinset_cons]
    by_cases hb : 0 ≤ cell.1 + d.1 ∧ cell.1 + d.1 < st.height ∧
        0 ≤ cell.2 + d.2 ∧ cell.2 + d.2 < st.width
    · by_cases hm : ((cell.1 + d.1, cell.2 + d.2) : Cell) ∈ st.mines
      · have hstep : nbrStep st cell (A, c0) d = (A, c0 - 1) := by
          simp [nbrStep, hb, hm]
        rw [hstep, ih _ _ hnd]
        rw [Finset.filter_insert, Finset.filter_insert]
        rw [if_neg (by simp [hm]), if_pos (by simp [hb, hm])]
        rw [Finset.card_insert_of_not_mem (by simp [hnT])]
        refine Prod.ext rfl ?_
        push_cast
        ring
      · by_cases hs : ((cell.1 + d.1, cell.2 + d.2) : Cell) ∈ st.safes
        · have hstep : nbrStep st cell (A, c0) d = (A, c0) := by
            simp [nbrStep, hb, hm, hs]
          rw [hstep, ih _ _ hnd]
          rw [Finset.filter_insert, Finset.filter_insert]
          rw [if_neg (by simp [hs]), if_neg (by simp [hm])]
        · have hstep : nbrStep st cell (A, c0) d =
              (insert ((cell.1 + d.1, cell.2 + d.2) : Cell) A, c0) := by
            simp [nbrStep, hb, hm, hs]
          rw [hstep, ih _ _ hnd]
          rw [Finset.filter_insert, Finset.filter_insert]
          rw [if_pos (by simp [hb, hm, hs]), if_neg (by simp [hm])]
          refine Prod.ext ?_ rfl
          simp [Finset.union_insert, Finset.insert_union]
    · have hstep : nbrStep st cell (A, c0) d = (A, c0) := by
        simp only [nbrStep]
        rw [if_neg hb]
      rw [hstep, ih _ _ hnd]
      rw [Finset.filter_insert, Finset.filter_insert]
      rw [if_neg (by simp [hb]), if_neg (by simp [hb])]

theorem filter_and_not_not (T : Finset Cell) (P : Cell → Prop) [DecidablePred P]
    (m s : Finset Cell) :
    (T.filter fun n => P n ∧ n ∉ m ∧ n ∉ s) = ((T.filter P) \ m) \ s := by
  ext n
  simp only [Finset.mem_filter, Finset.mem_sdiff]
  tauto

theorem filter_and_mem (T : Finset Cell) (P : Cell → Prop) [DecidablePred P]
    (m : Finset Cell) :
    (T.filter fun n => P n ∧ n ∈ m) = (T.filter P) ∩ m := by
  ext n
  simp only [Finset.mem_filter, Finset.mem_inter]
  tauto

/-- Closed form of `observedSentence` on an arbitrary state. -/
theorem observedSentence_eq (st : AIState) (cell : Cell) (count : ℤ) :
    observedSentence st cell count =
      ⟨(inbounds8 st.height st.width cell \ st.mines) \ st.safes,
       count - ((inbounds8 st.height st.width cell ∩ st.mines).card : ℤ)⟩ := by
  unfold observedSentence
  rw [nbr_foldl st cell deltas ∅ count (shifted_nodup cell)]
  dsimp only
  rw [Finset.empty_union, filter_and_not_not, filter_and_mem]
  rfl

/-- Closed form of the sentence submitted for insertion by `add_knowledge`,
in terms of the call-time state. -/
theorem addObservedSentence_eq (st : AIState) (cell : Cell) (count : ℤ) :
    addObservedSentence st cell count =
      ⟨(inbounds8 st.height st.width cell \ st.mines) \ st.safes,
       count - ((inbounds8 st.height st.width cell ∩ st.mines).card : ℤ)⟩ := by
  unfold addObservedSentence
  rw [observedSentence_eq]
  have hself : cell ∉ inbounds8 st.height st.width cell := by
    intro hc
    rcases Finset.mem_filter.mp hc with ⟨hc, -⟩
    exact self_not_mem_shifted cell (List.mem_toFinset.mp hc)
  have hs : (aiMarkSafe cell { st with moves_made := insert cell st.moves_made }).safes
      = insert cell st.safes := rfl
  refine Sentence.mk.injEq .. ▸ ⟨?_, rfl⟩
  rw [hs]
  ext n
  simp only [Finset.mem_sdiff, Finset.mem_insert]
  constructor
  · rintro ⟨⟨hni, hnm⟩, hns⟩
    exact ⟨⟨hni, hnm⟩, fun h => hns (Or.inr h)⟩
  · rintro ⟨⟨hni, hnm⟩, hns⟩
    refine ⟨⟨hni, hnm⟩, fun h => ?_⟩
    rcases h with rfl | h
    · exact hself hni
    · exact hns h

/-- C7: the constraint submitted for insertion by `observe(cell, count)`
(`add_knowledge`) has as its cell set exactly the in-bounds 8-neighbors of
`cell` that are in neither `mines` nor `safes` at call time, and as its count
the reported count minus the number of in-bounds 8-neighbors already in
`mines`.  (The source marks `cell` itself safe before the scan, but `cell` is
not one of its own 8-neighbors, so the call-time sets decide the result.) -/
theorem claim_C7 (st : AIState) (cell : Cell) (count : ℤ) :
    addObservedSentence st cell count =
      ⟨(inbounds8 st.height st.width cell \ st.mines) \ st.safes,
       count - ((inbounds8 st.height st.width cell ∩ st.mines).card : ℤ)⟩ :=
  addObservedSentence_eq st cell count

/-! ### Move selection -/

theorem mem_randomChoices {st : AIState} {c : Cell} :
    c ∈ randomChoices st ↔
      c ∈ gridCells st.height st.width ∧ c ∉ st.moves_made ∧ c ∉ st.mines := by
  unfold randomChoices
  rw [List.mem_flatMap]
  constructor
  · rintro ⟨i, hi, hc⟩
    rw [List.mem_filterMap] at hc
    obtain ⟨j, hj, hcj⟩ := hc
    rw [List.mem_range] at hi hj
    split at hcj
    · rename_i hcond
      cases hcj
      refine ⟨?_, hcond⟩
      simp only [gridCells, Finset.mem_product, Finset.mem_Icc]
      omega
    · cases hcj
  · rintro ⟨hg, hmm, hmi⟩
    simp only [gridCells, Finset.mem_product, Finset.mem_Icc] at hg
    refine ⟨c.1.toNat, ?_, ?_⟩
    · rw [List.mem_range]; omega
    · rw [List.mem_filterMap]
      refine ⟨c.2.toNat, ?_, ?_⟩
      · rw [List.mem_range]; omega
      · have hc : ((c.1.toNat : ℤ), (c.2.toNat : ℤ)) = c := by
          refine Prod.ext ?_ ?_ <;> simp <;> omega
        rw [hc, if_pos ⟨hmm, hmi⟩]

theorem makeRandomMove_mem {st : AIState} {k : Nat} {c : Cell}
    (h : makeRandomMove k st = some c) : c ∈ randomChoices st := by
  unfold makeRandomMove at h
  split at h
  · cases h
  · exact List.getElem?_mem h

theorem makeRandomMove_none_iff (st : AIState) (k : Nat) :
    makeRandomMove k st = none ↔ randomChoices st = [] := by
  unfold makeRandomMove
  split
  · rename_i h
    simp [List.isEmpty_iff.mp h]
  · rename_i h
    have hne : randomChoices st ≠ [] := by
      intro hc
      exact h (by simp [hc])
    have hlt : k % (randomChoices st).length < (randomChoices st).length :=
      Nat.mod_lt _ (List.length_pos.mpr hne)
    simp [List.getElem?_eq_getElem hlt, hne]

/-- C8: `make_random_move` returns a cell drawn from the in-bounds cells
minus `moves_made` minus `mines`, returns `None` exactly when that set is
empty, and on the 6×6 grid where every cell but `(5,5)` was played and no
mines are known it returns `(5,5)` whatever the random draw. -/
theorem claim_C8 :
    (∀ (st : AIState) (k : Nat) (c : Cell), makeRandomMove k st = some c →
      c ∈ (gridCells st.height st.width \ st.moves_made) \ st.mines) ∧
    (∀ (st : AIState) (k : Nat), makeRandomMove k st = none ↔
      (gridCells st.height st.width \ st.moves_made) \ st.mines = ∅) ∧
    (∀ k : Nat, makeRandomMove k stC8 = some ((5 : ℤ), (5 : ℤ))) := by
  refine ⟨?_, ?_, ?_⟩
  · intro st k c h
    have hc := mem_randomChoices.mp (makeRandomMove_mem h)
    rw [Finset.mem_sdiff, Finset.mem_sdiff]
    exact ⟨⟨hc.1, hc.2.1⟩, hc.2.2⟩
  · intro st k
    rw [makeRandomMove_none_iff]
    constructor
    · intro h
      rw [Finset.eq_empty_iff_forall_not_mem]
      intro c hc
      rw [Finset.mem_sdiff, Finset.mem_sdiff] at hc
      have : c ∈ randomChoices st := mem_randomChoices.mpr ⟨hc.1.1, hc.1.2, hc.2⟩
      rw [h] at this
      cases this
    · intro h
      rw [List.eq_nil_iff_forall_not_mem]
      intro c hc
      have hcm := mem_randomChoices.mp hc
      have : c ∈ (gridCells st.height st.width \ st.moves_made) \ st.mines := by
        rw [Finset.mem_sdiff, Finset.mem_sdiff]
        exact ⟨⟨hcm.1, hcm.2.1⟩, hcm.2.2⟩
      rw [h] at this
      exact Finset.not_mem_empty c this
  · intro k
    have h : randomChoices stC8 = [((5 : ℤ), (5 : ℤ))] := by decide
    unfold makeRandomMove
    rw [h]
    simp [Nat.mod_one]

/-- Witness for `claim_C8` at the 6×6 scenario: the returned cell `(5,5)` is
indeed drawn from the admissible set. -/
theorem claim_C8_wit :
    makeRandomMove 0 stC8 = some ((5 : ℤ), (5 : ℤ)) ∧
    ((5 : ℤ), (5 : ℤ)) ∈ (gridCells stC8.height stC8.width \ stC8.moves_made) \ stC8.mines := by
  have h := claim_C8.2.2 0
  exact ⟨h, claim_C8.1 stC8 0 _ h⟩

/-- C10: the move-selection queries are pure: neither `make_safe_move` nor
`make_random_move` changes `moves_made`, `safes`, `mines`, or the stored
sentences (the source methods contain no field writes, so their embedded
state transformers return the state unchanged). -/
theorem claim_C10 (order : List Cell) (k : Nat) (st : AIState) :
    (makeSafeMoveS order st).2 = st ∧ (makeRandomMoveS k st).2 = st ∧
    (makeSafeMoveS order st).2.moves_made = st.moves_made ∧
    (makeSafeMoveS order st).2.safes = st.safes ∧
    (makeSafeMoveS order st).2.mines = st.mines ∧
    (makeSafeMoveS order st).2.knowledge = st.knowledge ∧
    (makeRandomMoveS k st).2.moves_made = st.moves_made ∧
    (makeRandomMoveS k st).2.safes = st.safes ∧
    (makeRandomMoveS k st).2.mines = st.mines ∧
    (makeRandomMoveS k st).2.knowledge = st.knowledge :=
  ⟨rfl, rfl, rfl, rfl, rfl, rfl, rfl, rfl, rfl, rfl⟩

/-! ### The fixpoint loop: basic structure -/

theorem roundStep_height (st : AIState) : (roundStep st).height = st.height := rfl

theorem roundStep_width (st : AIState) : (roundStep st).width = st.width := rfl

theorem roundStep_moves (st : AIState) : (roundStep st).moves_made = st.moves_made := rfl

theorem roundStep_safes (st : AIState) :
    (roundStep st).safes = st.safes ∪ extractSafes st.knowledge := rfl

theorem roundStep_mines (st : AIState) :
    (roundStep st).mines = st.mines ∪ extractMines st.knowledge := rfl

theorem roundStep_knowledge (st : AIState) :
    (roundStep st).knowledge = ((postMark st).knowledge ++ roundInfer st).filter
      (fun s => decide (s.cells ≠ ∅)) := rfl

theorem postMark_knowledge (st : AIState) :
    (postMark st).knowledge = st.knowledge.map
      (shrinkS (extractSafes st.knowledge) (extractMines st.knowledge)) := by
  rw [postMark_eq]

theorem updateLoopT_mono {n m : Nat} (h : n ≤ m) {st st' : AIState}
    (hr : updateLoopT n st = some st') : updateLoopT m st = some st' := by
  induction n generalizing m st with
  | zero => cases hr
  | succ n ih =>
    obtain ⟨m', rfl⟩ : ∃ m', m = m' + 1 := ⟨m - 1, by omega⟩
    rw [updateLoopT] at hr ⊢
    by_cases hc : roundChanged st
    · rw [if_pos hc] at hr ⊢
      exact ih (by omega) hr
    · rw [if_neg hc] at hr ⊢
      exact hr

theorem loop_safes_mono {n : Nat} {st st' : AIState}
    (h : updateLoopT n st = some st') : st.safes ⊆ st'.safes := by
  induction n generalizing st with
  | zero => cases h
  | succ n ih =>
    rw [updateLoopT] at h
    by_cases hc : roundChanged st
    · rw [if_pos hc] at h
      refine subset_trans ?_ (ih h)
      rw [roundStep_safes]
      exact Finset.subset_union_left
    · rw [if_neg hc] at h
      cases h
      rw [roundStep_safes]
      exact Finset.subset_union_left

theorem loop_mines_mono {n : Nat} {st st' : AIState}
    (h : updateLoopT n st = some st') : st.mines ⊆ st'.mines := by
  induction n generalizing st with
  | zero => cases h
  | succ n ih =>
    rw [updateLoopT] at h
    by_cases hc : roundChanged st
    · rw [if_pos hc] at h
      refine subset_trans ?_ (ih h)
      rw [roundStep_mines]
      exact Finset.subset_union_left
    · rw [if_neg hc] at h
      cases h
      rw [roundStep_mines]
      exact Finset.subset_union_left

/-- A completed loop run reaches the result of its own first round. -/
theorem loop_first_round {n : Nat} {st st' : AIState}
    (h : updateLoopT n st = some st') :
    (roundStep st).safes ⊆ st'.safes ∧ (roundStep st).mines ⊆ st'.mines := by
  cases n with
  | zero => cases h
  | succ n =>
    rw [updateLoopT] at h
    by_cases hc : roundChanged st
    · rw [if_pos hc] at h
      exact ⟨loop_safes_mono h, loop_mines_mono h⟩
    · rw [if_neg hc] at h
      cases h
      exact ⟨subset_rfl, subset_rfl⟩

theorem loop_frame {n : Nat} {st st' : AIState}
    (h : updateLoopT n st = some st') :
    st'.height = st.height ∧ st'.width = st.width ∧ st'.moves_made = st.moves_made := by
  induction n generalizing st with
  | zero => cases h
  | succ n ih =>
    rw [updateLoopT] at h
    by_cases hc : roundChanged st
    · rw [if_pos hc] at h
      obtain ⟨h1, h2, h3⟩ := ih h
      exact ⟨h1.trans (roundStep_height st), h2.trans (roundStep_width st),
        h3.trans (roundStep_moves st)⟩
    · rw [if_neg hc] at h
      cases h
      exact ⟨rfl, rfl, rfl⟩

/-! ### Concrete claims about the fixpoint loop -/

/-- C1: subset-subtraction inference is performed and effective.  For every
ordered pair of distinct non-empty sentences with `s1.cells ⊆ s2.cells` the
pass derives `(s2.cells - s1.cells, s2.count - s1.count)` (it is present
afterwards, either already stored or among the new inferences); and from a
knowledge base holding exactly `({A,B,C}, 2)` and `({A,B}, 1)`, `propagate()`
completes with `C` a proven mine. -/
theorem claim_C1 :
    (∀ (K : List Sentence) (s1 s2 : Sentence), s1 ∈ K → s2 ∈ K → s1 ≠ s2 →
      s1.cells ≠ ∅ → s2.cells ≠ ∅ → s1.cells ⊆ s2.cells →
      diffSentence s1 s2 ∈ K ∨ diffSentence s1 s2 ∈ inferStep K) ∧
    (updateLoopT 10 stC1 = some stC1Final ∧ cC ∈ stC1Final.mines) :=
  ⟨fun _ _ _ h1 h2 hne h1e h2e hsub => infer_derives h1 h2 hne h1e h2e hsub,
    by decide, by decide⟩

/-- Witness for `claim_C1`: the pair `(({A,B},1), ({A,B,C},2))` of `stC1`
derives `({C}, 1)`. -/
theorem claim_C1_wit :
    diffSentence ⟨{cA, cB}, 1⟩ ⟨{cA, cB, cC}, 2⟩ ∈ stC1.knowledge ∨
    diffSentence ⟨{cA, cB}, 1⟩ ⟨{cA, cB, cC}, 2⟩ ∈ inferStep stC1.knowledge :=
  claim_C1.1 stC1.knowledge ⟨{cA, cB}, 1⟩ ⟨{cA, cB, cC}, 2⟩ (by decide) (by decide)
    (by decide) (by decide) (by decide) (by decide)

/-- Counterexample to C2 as stated: on the inconsistent knowledge base
`[({A},0), ({A},1)]`, `propagate()` completes and the member `A` of the
count-0 sentence ends up in `mines` (the claim says it never does). -/
theorem claim_C2_cex :
    updateLoopT 5 stC2 = some stC2Final ∧
    (⟨{cA}, 0⟩ : Sentence) ∈ stC2.knowledge ∧ (⟨{cA}, 0⟩ : Sentence).count = 0 ∧
    cA ∈ (⟨{cA}, 0⟩ : Sentence).cells ∧ cA ∈ stC2Final.mines :=
  ⟨by decide, by decide, by decide, by decide, by decide⟩

/-- Counterexample to C3 as stated: `add_knowledge((0,0), 99)` on a fresh 2×2
agent stores a sentence whose count exceeds its cell-set size and returns
normally; no error of any kind is raised. -/
theorem claim_C3_cex :
    addKnowledge 5 ((0 : ℤ), (0 : ℤ)) 99 (initState 2 2) = some stC3AddFinal ∧
    stC3AddFinal.knowledge ≠ [] ∧
    (∀ s ∈ stC3AddFinal.knowledge, (s.cells.card : ℤ) < s.count) :=
  ⟨by decide, by decide, by decide⟩

/-- C3 amended: the implementation performs no validation.  Insertion stores
any sentence not already present, whatever its count, and propagation derives
and stores sentences with negative counts while completing normally. -/
theorem claim_C3_amended :
    (∀ (K : List Sentence) (ns : Sentence), ns ∉ K → insertSentence K ns = K ++ [ns]) ∧
    (updateLoopT 5 stC3 = some stC3Final ∧ (⟨{cC}, -2⟩ : Sentence) ∈ stC3Final.knowledge ∧
      (⟨{cC}, -2⟩ : Sentence).count < 0) := by
  constructor
  · intro K ns h
    unfold insertSentence
    rw [if_neg h]
  · exact ⟨by decide, by decide, by decide⟩

/-- Witness for `claim_C3_amended`: the sentence `({A}, 5)` (count exceeding
the cell-set size) is stored without complaint. -/
theorem claim_C3_amended_wit :
    insertSentence [] ⟨{cA}, 5⟩ = [] ++ [⟨{cA}, 5⟩] :=
  claim_C3_amended.1 [] ⟨{cA}, 5⟩ (by decide)

/-- Counterexample to C9 as stated: propagation from `stC9` completes with
the sentence `({A,B},1)` stored twice — two structurally equal constraints
persist after the public operation. -/
theorem claim_C9_cex :
    updateLoopT 5 stC9 = some stC9Final ∧ ¬ stC9Final.knowledge.Nodup :=
  ⟨by decide, by decide⟩

/-- C9 amended: insertion is deduplicated by value equality — `add_knowledge`
appends only an absent sentence, and the inference pass adds only sentences
absent from the knowledge list, without duplicates among themselves — but
sentences that become structurally equal through in-place shrinking are all
retained (see the counterexample). -/
theorem claim_C9_amended :
    (∀ (K : List Sentence) (ns : Sentence),
      (ns ∈ K → insertSentence K ns = K) ∧ (K.Nodup → (insertSentence K ns).Nodup)) ∧
    (∀ K : List Sentence, (inferStep K).Nodup ∧ ∀ x ∈ inferStep K, x ∉ K) := by
  constructor
  · intro K ns
    constructor
    · intro h
      unfold insertSentence
      rw [if_pos h]
    · intro hnd
      unfold insertSentence
      split
      · exact hnd
      · rename_i h
        simp [List.nodup_append, hnd, h]
  · intro K
    exact ⟨inferStep_nodup K, fun x hx => (inferStep_mem hx).1⟩

/-- Witness for `claim_C9_amended`: deduplicated insertion on a concrete
knowledge list, and the inference pass of `stC9` is duplicate-free. -/
theorem claim_C9_amended_wit :
    insertSentence [⟨{cA}, 0⟩] ⟨{cA}, 0⟩ = [⟨{cA}, 0⟩] ∧
    (insertSentence [⟨{cA}, 0⟩] ⟨{cB}, 1⟩).Nodup ∧
    (inferStep stC9.knowledge).Nodup :=
  ⟨(claim_C9_amended.1 [⟨{cA}, 0⟩] ⟨{cA}, 0⟩).1 (by decide),
   (claim_C9_amended.1 [⟨{cA}, 0⟩] ⟨{cB}, 1⟩).2 (by decide),
   (claim_C9_amended.2 stC9.knowledge).1⟩

/-! ### Consistency: sentences true of a board stay true -/

theorem card_inter_eq_zero {cells M : Finset Cell}
    (h : ((cells ∩ M).card : ℤ) = 0) : ∀ c ∈ cells, c ∉ M := by
  intro c hc hm
  have : cells ∩ M = ∅ := Finset.card_eq_zero.mp (by exact_mod_cast h)
  have : c ∈ (∅ : Finset Cell) := this ▸ Finset.mem_inter.mpr ⟨hc, hm⟩
  cases Finset.not_mem_empty c this

theorem card_inter_eq_card {cells M : Finset Cell}
    (h : ((cells ∩ M).card : ℤ) = (cells.card : ℤ)) : cells ⊆ M := by
  have hcard : (cells ∩ M).card = cells.card := by exact_mod_cast h
  have hsub : cells ∩ M ⊆ cells := Finset.inter_subset_left
  have : cells ∩ M = cells := Finset.eq_of_subset_of_card_le hsub (le_of_eq hcard.symm)
  intro c hc
  exact (Finset.mem_inter.mp (this ▸ hc)).2

theorem extractSafes_not_mine {M : Finset Cell} {K : List Sentence}
    (hK : ∀ s ∈ K, SentTrue M s) : ∀ c ∈ extractSafes K, c ∉ M := by
  intro c hc
  obtain ⟨s, hs, hcs⟩ := mem_extractSafes.mp hc
  obtain ⟨h0, hcc⟩ := mem_known_safes.mp hcs
  have ht := hK s hs
  rw [SentTrue, h0] at ht
  exact card_inter_eq_zero ht c hcc

theorem extractMines_mine {M : Finset Cell} {K : List Sentence}
    (hK : ∀ s ∈ K, SentTrue M s) : ∀ c ∈ extractMines K, c ∈ M := by
  intro c hc
  obtain ⟨s, hs, hcs⟩ := mem_extractMines.mp hc
  obtain ⟨⟨hcard, -⟩, hcc⟩ := mem_known_mines.mp hcs
  have ht := hK s hs
  rw [SentTrue] at ht
  exact card_inter_eq_card (ht.trans hcard.symm) hcc

theorem shrinkS_true {M sf mf : Finset Cell} {s : Sentence}
    (ht : SentTrue M s) (hsf : ∀ c ∈ sf, c ∉ M) (hmf : ∀ c ∈ mf, c ∈ M) :
    SentTrue M (shrinkS sf mf s) := by
  rw [SentTrue] at ht ⊢
  unfold shrinkS
  have h1 : (s.cells \ sf) ∩ M = s.cells ∩ M := by
    ext x
    simp only [Finset.mem_inter, Finset.mem_sdiff]
    exact ⟨fun h => ⟨h.1.1, h.2⟩, fun h => ⟨⟨h.1, fun hx => hsf x hx h.2⟩, h.2⟩⟩
  have h2 : ((s.cells \ sf) \ mf) ∩ M = ((s.cells \ sf) ∩ M) \ ((s.cells \ sf) ∩ mf) := by
    ext x
    simp only [Finset.mem_inter, Finset.mem_sdiff]
    tauto
  have h3 : (s.cells \ sf) ∩ mf ⊆ (s.cells \ sf) ∩ M :=
    fun x hx => Finset.mem_inter.mpr
      ⟨(Finset.mem_inter.mp hx).1, hmf x (Finset.mem_inter.mp hx).2⟩
  rw [h1] at h3
  have hcard : (((s.cells \ sf) \ mf) ∩ M).card =
      (s.cells ∩ M).card - ((s.cells \ sf) ∩ mf).card := by
    rw [h2, h1]
    exact Finset.card_sdiff h3
  have hle := Finset.card_le_card h3
  simp only [hcard]
  rw [Nat.cast_sub hle, ht]

theorem diffSentence_true {M : Finset Cell} {s1 s2 : Sentence}
    (h1 : SentTrue M s1) (h2 : SentTrue M s2) (hsub : s1.cells ⊆ s2.cells) :
    SentTrue M (diffSentence s1 s2) := by
  rw [SentTrue] at h1 h2 ⊢
  unfold diffSentence
  have he : (s2.cells \ s1.cells) ∩ M = (s2.cells ∩ M) \ (s1.cells ∩ M) := by
    ext x
    simp only [Finset.mem_inter, Finset.mem_sdiff]
    tauto
  have hsub' : s1.cells ∩ M ⊆ s2.cells ∩ M :=
    fun x hx => Finset.mem_inter.mpr
      ⟨hsub (Finset.mem_inter.mp hx).1, (Finset.mem_inter.mp hx).2⟩
  have hc := Finset.card_sdiff hsub'
  have hle := Finset.card_le_card hsub'
  simp only [he, hc]
  rw [Nat.cast_sub hle, h1, h2]

theorem postMark_consistent {M : Finset Cell} {st : AIState}
    (h : KBConsistent M st) : KBConsistent M (postMark st) := by
  obtain ⟨hK, hsafe, hmine⟩ := h
  have hsf := extractSafes_not_mine hK
  have hmf := extractMines_mine hK
  refine ⟨?_, ?_, ?_⟩
  · intro s hs
    rw [postMark_knowledge] at hs
    obtain ⟨t, ht, rfl⟩ := List.mem_map.mp hs
    exact shrinkS_true (hK t ht) hsf hmf
  · intro c hc
    rcases Finset.mem_union.mp hc with h | h
    · exact hsafe c h
    · exact hsf c h
  · intro c hc
    rcases Finset.mem_union.mp hc with h | h
    · exact hmine c h
    · exact hmf c h

theorem roundStep_knowledge_mem {st : AIState} {s : Sentence}
    (hs : s ∈ (roundStep st).knowledge) :
    s.cells ≠ ∅ ∧ (s ∈ (postMark st).knowledge ∨ s ∈ inferStep (postMark st).knowledge) := by
  rw [roundStep_knowledge] at hs
  rw [List.mem_filter] at hs
  obtain ⟨hs, hne⟩ := hs
  refine ⟨by simpa using hne, ?_⟩
  rcases List.mem_append.mp hs with h | h
  · exact Or.inl h
  · exact Or.inr h

theorem roundStep_consistent {M : Finset Cell} {st : AIState}
    (h : KBConsistent M st) : KBConsistent M (roundStep st) := by
  have hpm := postMark_consistent h
  obtain ⟨hK, hsafe, hmine⟩ := hpm
  refine ⟨?_, hsafe, hmine⟩
  intro s hs
  obtain ⟨-, hs⟩ := roundStep_knowledge_mem hs
  rcases hs with h' | h'
  · exact hK s h'
  · obtain ⟨-, s1, hs1, s2, hs2, -, -, -, hsub, rfl⟩ := inferStep_mem h'
    exact diffSentence_true (hK s1 hs1) (hK s2 hs2) hsub

theorem loop_consistent {M : Finset Cell} {n : Nat} {st st' : AIState}
    (hrun : updateLoopT n st = some st') (h : KBConsistent M st) :
    KBConsistent M st' := by
  induction n generalizing st with
  | zero => cases hrun
  | succ n ih =>
    rw [updateLoopT] at hrun
    by_cases hc : roundChanged st
    · rw [if_pos hc] at hrun
      exact ih hrun (roundStep_consistent h)
    · rw [if_neg hc] at hrun
      cases hrun
      exact roundStep_consistent h

/-- C2 amended: soundness of the direct rules under propagation, for
consistent input.  If the knowledge base is consistent with some board `M`,
then after a completed `propagate()` every member of a stored count-0
sentence is in `safes` and not in `mines`, and every member of a stored
sentence with `count = |cells| > 0` is in `mines` and not in `safes`.  (The
counterexample shows the disjointness halves fail on inconsistent input.) -/
theorem claim_C2_amended {M : Finset Cell} {st : AIState} (hc : KBConsistent M st)
    {s : Sentence} (hs : s ∈ st.knowledge) {n : Nat} {st' : AIState}
    (hrun : updateLoopT n st = some st') :
    (s.count = 0 → ∀ c ∈ s.cells, c ∈ st'.safes ∧ c ∉ st'.mines) ∧
    ((s.cells.card : ℤ) = s.count ∧ 0 < s.count →
      ∀ c ∈ s.cells, c ∈ st'.mines ∧ c ∉ st'.safes) := by
  have hc' := loop_consistent hrun hc
  constructor
  · intro h0 c hcc
    have hsf : c ∈ extractSafes st.knowledge :=
      mem_extractSafes.mpr ⟨s, hs, mem_known_safes.mpr ⟨h0, hcc⟩⟩
    have h1 : c ∈ (roundStep st).safes := by
      rw [roundStep_safes]
      exact Finset.mem_union_right _ hsf
    refine ⟨(loop_first_round hrun).1 h1, fun hm => ?_⟩
    have hcM : c ∉ M := by
      have ht := hc.1 s hs
      rw [SentTrue, h0] at ht
      exact card_inter_eq_zero ht c hcc
    exact hcM (hc'.2.2 c hm)
  · intro ⟨hcard, hpos⟩ c hcc
    have hmf : c ∈ extractMines st.knowledge :=
      mem_extractMines.mpr ⟨s, hs, mem_known_mines.mpr ⟨⟨hcard, by omega⟩, hcc⟩⟩
    have h1 : c ∈ (roundStep st).mines := by
      rw [roundStep_mines]
      exact Finset.mem_union_right _ hmf
    refine ⟨(loop_first_round hrun).2 h1, fun hsafe => ?_⟩
    have hcM : c ∈ M := by
      have ht := hc.1 s hs
      rw [SentTrue] at ht
      exact card_inter_eq_card (ht.trans hcard.symm) hcc
    exact hc'.2.1 c hsafe hcM

/-- Witness for `claim_C2_amended`: `stC9` is consistent with the board
`{A}`; its stored sentence `({C}, 0)` puts `C` in `safes` and keeps it out of
`mines` after the completed propagation. -/
theorem claim_C2_amended_wit :
    cC ∈ stC9Final.safes ∧ cC ∉ stC9Final.mines := by
  have h := claim_C2_amended (by decide : KBConsistent {cA} stC9)
    (s := ⟨{cC}, 0⟩) (by decide)
    (by decide : updateLoopT 5 stC9 = some stC9Final)
  exact h.1 (by decide) cC (by decide)

/-! ### The domain invariant and reachable states -/

theorem extractSafes_sub_cells {K : List Sentence} {c : Cell}
    (hc : c ∈ extractSafes K) : ∃ s ∈ K, c ∈ s.cells := by
  obtain ⟨s, hs, hcs⟩ := mem_extractSafes.mp hc
  exact ⟨s, hs, (mem_known_safes.mp hcs).2⟩

theorem extractMines_sub_cells {K : List Sentence} {c : Cell}
    (hc : c ∈ extractMines K) : ∃ s ∈ K, c ∈ s.cells := by
  obtain ⟨s, hs, hcs⟩ := mem_extractMines.mp hc
  exact ⟨s, hs, (mem_known_mines.mp hcs).2⟩

theorem postMark_domok {st : AIState} (h : KBDomOk st) : KBDomOk (postMark st) := by
  intro s hs
  rw [postMark_knowledge] at hs
  obtain ⟨t, ht, rfl⟩ := List.mem_map.mp hs
  obtain ⟨htg, htm⟩ := h t ht
  have hsub : (shrinkS (extractSafes st.knowledge) (extractMines st.knowledge) t).cells
      ⊆ t.cells := by
    intro c hc
    rw [shrinkS] at hc
    exact Finset.mem_sdiff.mp ((Finset.mem_sdiff.mp hc).1) |>.1
  constructor
  · exact hsub.trans htg
  · intro c hc
    have hcm := htm c (hsub hc)
    rw [shrinkS] at hc
    simp only [Finset.mem_sdiff] at hc
    constructor
    · intro hcon
      rcases Finset.mem_union.mp hcon with h' | h'
      · exact hcm.1 h'
      · exact hc.1.2 h'
    · intro hcon
      rcases Finset.mem_union.mp hcon with h' | h'
      · exact hcm.2 h'
      · exact hc.2 h'

theorem roundStep_domok {st : AIState} (h : KBDomOk st) : KBDomOk (roundStep st) := by
  have hpm := postMark_domok h
  intro s hs
  obtain ⟨-, hs⟩ := roundStep_knowledge_mem hs
  rcases hs with h' | h'
  · exact hpm s h'
  · obtain ⟨-, s1, hs1, s2, hs2, -, -, -, -, rfl⟩ := inferStep_mem h'
    obtain ⟨hg2, hm2⟩ := hpm s2 hs2
    have hsub : (diffSentence s1 s2).cells ⊆ s2.cells := by
      intro c hc
      exact (Finset.mem_sdiff.mp hc).1
    exact ⟨hsub.trans hg2, fun c hc => hm2 c (hsub hc)⟩

theorem loop_domok {n : Nat} {st st' : AIState}
    (hrun : updateLoopT n st = some st') (h : KBDomOk st) : KBDomOk st' := by
  induction n generalizing st with
  | zero => cases hrun
  | succ n ih =>
    rw [updateLoopT] at hrun
    by_cases hc : roundChanged st
    · rw [if_pos hc] at hrun
      exact ih hrun (roundStep_domok h)
    · rw [if_neg hc] at hrun
      cases hrun
      exact roundStep_domok h

theorem inbounds8_subset_grid (h w : ℤ) (cell : Cell) :
    inbounds8 h w cell ⊆ gridCells h w := by
  intro n hn
  obtain ⟨-, hb⟩ := Finset.mem_filter.mp hn
  simp only [gridCells, Finset.mem_product, Finset.mem_Icc]
  omega

theorem mem_insertSentence {K : List Sentence} {ns s : Sentence}
    (h : s ∈ insertSentence K ns) : s ∈ K ∨ s = ns := by
  unfold insertSentence at h
  split at h
  · exact Or.inl h
  · rcases List.mem_append.mp h with h' | h'
    · exact Or.inl h'
    · exact Or.inr (List.mem_singleton.mp h')

theorem addObserved_inv {M : Finset Cell} {st : AIState} {cell : Cell} {count : ℤ}
    (hc : KBConsistent M st) (hd : KBDomOk st) (hcell : cell ∈ gridCells st.height st.width)
    (hnm : cell ∉ M)
    (hcount : count = ((inbounds8 st.height st.width cell ∩ M).card : ℤ)) :
    KBConsistent M (addObserved st cell count) ∧ KBDomOk (addObserved st cell count) := by
  obtain ⟨hK, hsafe, hmine⟩ := hc
  have hself : cell ∉ inbounds8 st.height st.width cell := by
    intro hcon
    rcases Finset.mem_filter.mp hcon with ⟨hmem, -⟩
    exact self_not_mem_shifted cell (List.mem_toFinset.mp hmem)
  have hnsT : SentTrue M (addObservedSentence st cell count) := by
    rw [addObservedSentence_eq, SentTrue]
    have h5 : (((inbounds8 st.height st.width cell \ st.mines) \ st.safes) ∩ M) =
        (inbounds8 st.height st.width cell ∩ M) \
          (inbounds8 st.height st.width cell ∩ st.mines) := by
      ext x
      simp only [Finset.mem_inter, Finset.mem_sdiff]
      constructor
      · rintro ⟨⟨⟨hx1, hx2⟩, hx3⟩, hx4⟩
        exact ⟨⟨hx1, hx4⟩, fun hcon => hx2 hcon.2⟩
      · rintro ⟨⟨hx1, hx4⟩, hx5⟩
        exact ⟨⟨⟨hx1, fun hm => hx5 ⟨hx1, hm⟩⟩, fun hs => hsafe x hs hx4⟩, hx4⟩
    have hsub : inbounds8 st.height st.width cell ∩ st.mines ⊆
        inbounds8 st.height st.width cell ∩ M := by
      intro x hx
      rcases Finset.mem_inter.mp hx with ⟨hx1, hx2⟩
      exact Finset.mem_inter.mpr ⟨hx1, hmine x hx2⟩
    rw [h5, Finset.card_sdiff hsub, Nat.cast_sub (Finset.card_le_card hsub), hcount]
  have hnsD : (addObservedSentence st cell count).cells ⊆ gridCells st.height st.width ∧
      ∀ c ∈ (addObservedSentence st cell count).cells,
        c ∉ insert cell st.safes ∧ c ∉ st.mines := by
    rw [addObservedSentence_eq]
    constructor
    · intro c hcm
      simp only [Finset.mem_sdiff] at hcm
      exact inbounds8_subset_grid st.height st.width cell hcm.1.1
    · intro c hcm
      simp only [Finset.mem_sdiff] at hcm
      refine ⟨?_, hcm.1.2⟩
      intro hcon
      rcases Finset.mem_insert.mp hcon with rfl | h'
      · exact hself hcm.1.1
      · exact hcm.2 h'
  constructor
  · refine ⟨?_, ?_, hmine⟩
    · intro s hs
      rcases mem_insertSentence hs with h' | rfl
      · obtain ⟨t, ht, rfl⟩ := List.mem_map.mp h'
        rw [Sentence.mark_safe_eq, SentTrue]
        have : t.cells.erase cell ∩ M = t.cells ∩ M := by
          ext x
          simp only [Finset.mem_inter, Finset.mem_erase]
          constructor
          · rintro ⟨⟨-, hx1⟩, hx2⟩
            exact ⟨hx1, hx2⟩
          · rintro ⟨hx1, hx2⟩
            exact ⟨⟨fun he => hnm (he ▸ hx2), hx1⟩, hx2⟩
        rw [this]
        exact hK t ht
      · exact hnsT
    · intro c hcs
      rcases Finset.mem_insert.mp hcs with rfl | h'
      · exact hnm
      · exact hsafe c h'
  · intro s hs
    rcases mem_insertSentence hs with h' | rfl
    · obtain ⟨t, ht, rfl⟩ := List.mem_map.mp h'
      obtain ⟨htg, htm⟩ := hd t ht
      rw [Sentence.mark_safe_eq]
      constructor
      · exact (Finset.erase_subset _ _).trans htg
      · intro c hcs
        rcases Finset.mem_erase.mp hcs with ⟨hne, hcc⟩
        refine ⟨?_, (htm c hcc).2⟩
        intro hcon
        rcases Finset.mem_insert.mp hcon with rfl | h''
        · exact hne rfl
        · exact (htm c hcc).1 h''
    · exact hnsD

theorem reachable_inv {M : Finset Cell} {st : AIState} (h : Reachable M st) :
    KBConsistent M st ∧ KBDomOk st := by
  induction h with
  | init h w =>
    refine ⟨⟨?_, ?_, ?_⟩, ?_⟩ <;> intro x hx <;> cases hx
  | step st st' fuel cell count hr hin hnm hc hadd ih =>
    obtain ⟨hcons, hdom⟩ := ih
    obtain ⟨h1, h2⟩ := addObserved_inv hcons hdom hin hnm hc
    exact ⟨loop_consistent hadd h1, loop_domok hadd h2⟩

/-- C4: disjointness invariant.  In every state reachable by observations
satisfying the driver contract for a board `M`, the proven-safe and
proven-mine sets are disjoint. -/
theorem claim_C4 {M : Finset Cell} {st : AIState} (hr : Reachable M st) :
    st.safes ∩ st.mines = ∅ := by
  obtain ⟨⟨-, hsafe, hmine⟩, -⟩ := reachable_inv hr
  rw [Finset.eq_empty_iff_forall_not_mem]
  intro c hc
  rcases Finset.mem_inter.mp hc with ⟨h1, h2⟩
  exact hsafe c h1 (hmine c h2)

/-- Witness for `claim_C4`: the state reached from a fresh 2×2 agent by the
contract-respecting observation `observe((1,1), 1)` on the board `{(0,0)}`
has disjoint `safes` and `mines`. -/
theorem claim_C4_wit :
    (⟨2, 2, {((1 : ℤ), (1 : ℤ))}, ∅, {((1 : ℤ), (1 : ℤ))},
      [⟨{((1 : ℤ), (0 : ℤ)), ((0 : ℤ), (1 : ℤ)), ((0 : ℤ), (0 : ℤ))}, 1⟩]⟩ : AIState).safes ∩
    (⟨2, 2, {((1 : ℤ), (1 : ℤ))}, ∅, {((1 : ℤ), (1 : ℤ))},
      [⟨{((1 : ℤ), (0 : ℤ)), ((0 : ℤ), (1 : ℤ)), ((0 : ℤ), (0 : ℤ))}, 1⟩]⟩ : AIState).mines = ∅ := by
  refine claim_C4 (M := {((0 : ℤ), (0 : ℤ))}) ?_
  refine Reachable.step (initState 2 2) _ 10 ((1 : ℤ), (1 : ℤ)) 1 (Reachable.init 2 2)
    (by decide) (by decide) (by decide) (by decide)

/-! ### Idempotence of the fixpoint loop -/

theorem AIState.ext2 {s t : AIState} (h1 : s.height = t.height) (h2 : s.width = t.width)
    (h3 : s.moves_made = t.moves_made) (h4 : s.mines = t.mines) (h5 : s.safes = t.safes)
    (h6 : s.knowledge = t.knowledge) : s = t := by
  cases s
  cases t
  simp_all

theorem not_roundChanged {st : AIState} (h : ¬ roundChanged st) :
    extractSafes st.knowledge = ∅ ∧ extractMines st.knowledge = ∅ ∧ roundInfer st = [] := by
  unfold roundChanged at h
  push_neg at h
  exact h

theorem shrinkS_empty (s : Sentence) : shrinkS ∅ ∅ s = s := by
  unfold shrinkS
  cases s with
  | mk c n => simp

theorem postMark_id {st : AIState} (hsf : extractSafes st.knowledge = ∅)
    (hmf : extractMines st.knowledge = ∅) : postMark st = st := by
  rw [postMark_eq, hsf, hmf]
  have hmap : st.knowledge.map (shrinkS ∅ ∅) = st.knowledge := by
    have h1 : ∀ s ∈ st.knowledge, shrinkS ∅ ∅ s = id s := fun s _ => shrinkS_empty s
    rw [List.map_congr_left h1, List.map_id]
  refine AIState.ext2 rfl rfl rfl ?_ ?_ ?_
  · exact Finset.union_empty st.mines
  · exact Finset.union_empty st.safes
  · exact hmap

theorem extractSafes_filter_sub {K : List Sentence} {p : Sentence → Bool} :
    extractSafes (K.filter p) ⊆ extractSafes K := by
  intro c hc
  obtain ⟨s, hs, h⟩ := mem_extractSafes.mp hc
  exact mem_extractSafes.mpr ⟨s, (List.mem_filter.mp hs).1, h⟩

theorem extractMines_filter_sub {K : List Sentence} {p : Sentence → Bool} :
    extractMines (K.filter p) ⊆ extractMines K := by
  intro c hc
  obtain ⟨s, hs, h⟩ := mem_extractMines.mp hc
  exact mem_extractMines.mpr ⟨s, (List.mem_filter.mp hs).1, h⟩

theorem roundStep_of_unchanged {st : AIState} (h : ¬ roundChanged st) :
    roundStep st = { st with
      knowledge := st.knowledge.filter (fun s => decide (s.cells ≠ ∅)) } := by
  obtain ⟨hsf, hmf, hni⟩ := not_roundChanged h
  rw [roundStep_eq, postMark_id hsf hmf, hni, List.append_nil]

theorem roundStep_fixed {st : AIState} (h : ¬ roundChanged st) :
    roundStep (roundStep st) = roundStep st := by
  obtain ⟨hsf, hmf, hni⟩ := not_roundChanged h
  have hreceq := roundStep_of_unchanged h
  have hk : (roundStep st).knowledge =
      st.knowledge.filter (fun s => decide (s.cells ≠ ∅)) := by rw [hreceq]
  have hsf1 : extractSafes (roundStep st).knowledge = ∅ := by
    rw [hk]
    exact Finset.subset_empty.mp (hsf ▸ extractSafes_filter_sub)
  have hmf1 : extractMines (roundStep st).knowledge = ∅ := by
    rw [hk]
    exact Finset.subset_empty.mp (hmf ▸ extractMines_filter_sub)
  have hpm1 : postMark (roundStep st) = roundStep st := postMark_id hsf1 hmf1
  have hniK : inferStep st.knowledge = [] := by
    have h' := hni
    rw [roundInfer, postMark_id hsf hmf] at h'
    exact h'
  have hempty : ∀ x ∈ inferStep (roundStep st).knowledge,
      ¬ ((fun s => decide (s.cells ≠ ∅)) x = true) := by
    intro x hx
    obtain ⟨hxnot, s1, hs1, s2, hs2, hne, h1e, h2e, hsub, rfl⟩ := inferStep_mem hx
    rw [hk] at hs1 hs2 hxnot
    have h1K := (List.mem_filter.mp hs1).1
    have h2K := (List.mem_filter.mp hs2).1
    have hder : diffSentence s1 s2 ∈ st.knowledge := by
      rcases infer_derives h1K h2K hne h1e h2e hsub with h' | h'
      · exact h'
      · rw [hniK] at h'
        cases h'
    intro hcon
    exact hxnot (List.mem_filter.mpr ⟨hder, hcon⟩)
  refine AIState.ext2 rfl rfl rfl ?_ ?_ ?_
  · rw [roundStep_mines, hmf1, Finset.union_empty]
  · rw [roundStep_safes, hsf1, Finset.union_empty]
  · rw [roundStep_knowledge, hpm1, roundInfer, hpm1, List.filter_append]
    rw [List.filter_eq_nil_iff.mpr hempty, List.append_nil]
    apply List.filter_eq_self.mpr
    intro a ha
    rw [hk] at ha
    exact (List.mem_filter.mp ha).2

/-- C5: idempotence.  Any state produced by a completed `propagate()` run is
a literal fixed point of the round function — running the loop again never
changes `safes`, `mines`, or the stored sentences, and any completed re-run
returns the state unchanged. -/
theorem claim_C5 {n : Nat} {st st' : AIState} (hrun : updateLoopT n st = some st') :
    roundStep st' = st' ∧
    ∀ (m : Nat) (st'' : AIState), updateLoopT m st' = some st'' → st'' = st' := by
  have hfix : roundStep st' = st' := by
    induction n generalizing st with
    | zero => cases hrun
    | succ n ih =>
      rw [updateLoopT] at hrun
      by_cases hc : roundChanged st
      · rw [if_pos hc] at hrun
        exact ih hrun
      · rw [if_neg hc] at hrun
        cases hrun
        exact roundStep_fixed hc
  refine ⟨hfix, ?_⟩
  intro m
  induction m with
  | zero =>
    intro st'' h
    cases h
  | succ m ih =>
    intro st'' h
    rw [updateLoopT] at h
    by_cases hc : roundChanged st'
    · rw [if_pos hc, hfix] at h
      exact ih st'' h
    · rw [if_neg hc, hfix] at h
      exact (Option.some.inj h).symm

/-- Witness for `claim_C5`: the state reached by the completed propagation
from `stC1` is a fixed point of the round function. -/
theorem claim_C5_wit : roundStep stC1Final = stC1Final :=
  (claim_C5 (by decide : updateLoopT 10 stC1 = some stC1Final)).1

/-! ### Termination of the fixpoint loop on consistent states -/

theorem mem_Universe {M : Finset Cell} {h w : ℤ} {s : Sentence} :
    s ∈ Universe M h w ↔
      s.cells ⊆ gridCells h w ∧ s.cells ≠ ∅ ∧ SentTrue M s := by
  unfold Universe
  rw [Finset.mem_image]
  constructor
  · rintro ⟨t, ht, rfl⟩
    rw [Finset.mem_filter, Finset.mem_powerset] at ht
    exact ⟨ht.1, ht.2, rfl⟩
  · rintro ⟨hg, hne, htrue⟩
    refine ⟨s.cells, ?_, ?_⟩
    · rw [Finset.mem_filter, Finset.mem_powerset]
      exact ⟨hg, hne⟩
    · rw [SentTrue] at htrue
      calc (⟨s.cells, ((s.cells ∩ M).card : ℤ)⟩ : Sentence)
          = ⟨s.cells, s.count⟩ := by rw [htrue]
        _ = s := rfl

theorem diff_nonempty_of_true {M : Finset Cell} {s1 s2 : Sentence}
    (h1 : SentTrue M s1) (h2 : SentTrue M s2) (hne : s1 ≠ s2)
    (hsub : s1.cells ⊆ s2.cells) : (diffSentence s1 s2).cells ≠ ∅ := by
  intro hcon
  have hcells : s1.cells = s2.cells := by
    have h' : s2.cells ⊆ s1.cells := by
      intro x hx
      by_contra hx1
      have : x ∈ s2.cells \ s1.cells := Finset.mem_sdiff.mpr ⟨hx, hx1⟩
      rw [show (s2.cells \ s1.cells) = (diffSentence s1 s2).cells from rfl, hcon] at this
      exact Finset.not_mem_empty x this
    exact subset_antisymm hsub h'
  apply hne
  have hcount : s1.count = s2.count := by
    rw [SentTrue] at h1 h2
    rw [← h1, ← h2, hcells]
  calc s1 = ⟨s1.cells, s1.count⟩ := rfl
    _ = ⟨s2.cells, s2.count⟩ := by rw [hcells, hcount]
    _ = s2 := rfl

theorem shrinkS_id_of_disjoint {sf mf : Finset Cell} {v : Sentence}
    (h : ∀ c ∈ v.cells, c ∉ sf ∧ c ∉ mf) : shrinkS sf mf v = v := by
  have h1 : v.cells \ sf = v.cells := by
    ext x
    rw [Finset.mem_sdiff]
    exact ⟨fun hx => hx.1, fun hx => ⟨hx, (h x hx).1⟩⟩
  have h2 : v.cells \ mf = v.cells := by
    ext x
    rw [Finset.mem_sdiff]
    exact ⟨fun hx => hx.1, fun hx => ⟨hx, (h x hx).2⟩⟩
  have h3 : v.cells ∩ mf = ∅ := by
    rw [Finset.eq_empty_iff_forall_not_mem]
    intro x hx
    rcases Finset.mem_inter.mp hx with ⟨hx1, hx2⟩
    exact (h x hx1).2 hx2
  unfold shrinkS
  rw [h1, h2, h3]
  simp

theorem extract_union_props {st : AIState} (hdom : KBDomOk st) :
    ∀ c ∈ extractSafes st.knowledge ∪ extractMines st.knowledge,
      c ∈ gridCells st.height st.width ∧ c ∉ st.safes ∧ c ∉ st.mines := by
  intro c hc
  rcases Finset.mem_union.mp hc with h' | h'
  · obtain ⟨s, hs, hcs⟩ := extractSafes_sub_cells h'
    exact ⟨(hdom s hs).1 hcs, (hdom s hs).2 c hcs⟩
  · obtain ⟨s, hs, hcs⟩ := extractMines_sub_cells h'
    exact ⟨(hdom s hs).1 hcs, (hdom s hs).2 c hcs⟩

theorem unmarked_decrease {st : AIState} (hdom : KBDomOk st)
    (hchange : extractSafes st.knowledge ≠ ∅ ∨ extractMines st.knowledge ≠ ∅) :
    unmarkedCard (roundStep st) < unmarkedCard st := by
  have hc : ∃ c, c ∈ extractSafes st.knowledge ∪ extractMines st.knowledge := by
    rcases hchange with h' | h'
    · obtain ⟨c, hc⟩ := Finset.nonempty_iff_ne_empty.mpr h'
      exact ⟨c, Finset.mem_union_left _ hc⟩
    · obtain ⟨c, hc⟩ := Finset.nonempty_iff_ne_empty.mpr h'
      exact ⟨c, Finset.mem_union_right _ hc⟩
  obtain ⟨c, hc⟩ := hc
  obtain ⟨hcg, hcs, hcm⟩ := extract_union_props hdom c hc
  have hsub : gridCells st.height st.width \ ((roundStep st).safes ∪ (roundStep st).mines)
      ⊆ gridCells st.height st.width \ (st.safes ∪ st.mines) := by
    apply Finset.sdiff_subset_sdiff subset_rfl
    rw [roundStep_safes, roundStep_mines]
    intro x hx
    rcases Finset.mem_union.mp hx with h' | h'
    · exact Finset.mem_union_left _ (Finset.mem_union_left _ h')
    · exact Finset.mem_union_right _ (Finset.mem_union_left _ h')
  apply Finset.card_lt_card
  show gridCells st.height st.width \ ((roundStep st).safes ∪ (roundStep st).mines)
    ⊂ gridCells st.height st.width \ (st.safes ∪ st.mines)
  rw [Finset.ssubset_iff_of_subset hsub]
  refine ⟨c, ?_, ?_⟩
  · rw [Finset.mem_sdiff]
    refine ⟨hcg, fun hcon => ?_⟩
    rcases Finset.mem_union.mp hcon with h' | h'
    · exact hcs h'
    · exact hcm h'
  · rw [Finset.mem_sdiff]
    rintro ⟨-, hcon⟩
    apply hcon
    rw [roundStep_safes, roundStep_mines]
    rcases Finset.mem_union.mp hc with h' | h'
    · exact Finset.mem_union_left _ (Finset.mem_union_right _ h')
    · exact Finset.mem_union_right _ (Finset.mem_union_right _ h')

theorem inferStep_universe {M : Finset Cell} {st : AIState}
    (hcons : KBConsistent M st) (hdom : KBDomOk st) {x : Sentence}
    (hx : x ∈ inferStep st.knowledge) :
    x ∈ Universe M st.height st.width ∧ x ∉ st.knowledge ∧ x.cells ≠ ∅ ∧
      ∀ c ∈ x.cells, c ∉ st.safes ∧ c ∉ st.mines := by
  obtain ⟨hxn, s1, hs1, s2, hs2, hne, h1e, h2e, hsub, rfl⟩ := inferStep_mem hx
  have hne' : (diffSentence s1 s2).cells ≠ ∅ :=
    diff_nonempty_of_true (hcons.1 s1 hs1) (hcons.1 s2 hs2) hne hsub
  have hsubc : (diffSentence s1 s2).cells ⊆ s2.cells := fun c hc =>
    (Finset.mem_sdiff.mp hc).1
  refine ⟨?_, hxn, hne', fun c hc => (hdom s2 hs2).2 c (hsubc hc)⟩
  rw [mem_Universe]
  exact ⟨hsubc.trans (hdom s2 hs2).1, hne',
    diffSentence_true (hcons.1 s1 hs1) (hcons.1 s2 hs2) hsub⟩

theorem seenInv_roundStep {M : Finset Cell} {st : AIState} {V : Finset Sentence}
    (hseen : SeenInv M st V) :
    SeenInv M (roundStep st)
      (V ∪ ((roundStep st).knowledge.toFinset ∩ Universe M st.height st.width)) := by
  obtain ⟨hVU, hKV, hVK⟩ := hseen
  refine ⟨?_, ?_, ?_⟩
  · intro v hv
    rcases Finset.mem_union.mp hv with h' | h'
    · exact hVU h'
    · exact (Finset.mem_inter.mp h').2
  · intro s hs hU
    exact Finset.mem_union_right _
      (Finset.mem_inter.mpr ⟨List.mem_toFinset.mpr hs, hU⟩)
  · intro v hv
    rcases Finset.mem_union.mp hv with h' | h'
    · rcases hVK v h' with hk | hd
      · have hvne : v.cells ≠ ∅ := (mem_Universe.mp (hVU h')).2.1
        by_cases hdisj : ∀ c ∈ v.cells,
            c ∉ extractSafes st.knowledge ∧ c ∉ extractMines st.knowledge
        · left
          rw [roundStep_knowledge, List.mem_filter]
          refine ⟨List.mem_append_left _ ?_, by simpa using hvne⟩
          rw [postMark_knowledge]
          exact List.mem_map.mpr ⟨v, hk, shrinkS_id_of_disjoint hdisj⟩
        · right
          push_neg at hdisj
          obtain ⟨c, hcv, hcmem⟩ := hdisj
          refine ⟨c, hcv, ?_⟩
          rw [roundStep_safes, roundStep_mines]
          by_cases hcsf : c ∈ extractSafes st.knowledge
          · exact Or.inl (Finset.mem_union_right _ hcsf)
          · exact Or.inr (Finset.mem_union_right _ (hcmem hcsf))
      · right
        obtain ⟨c, hcv, hcm⟩ := hd
        refine ⟨c, hcv, ?_⟩
        rw [roundStep_safes, roundStep_mines]
        rcases hcm with h'' | h''
        · exact Or.inl (Finset.mem_union_left _ h'')
        · exact Or.inr (Finset.mem_union_left _ h'')
    · left
      exact List.mem_toFinset.mp (Finset.mem_inter.mp h').1

theorem unmarked_of_pure {st : AIState} (hsf : extractSafes st.knowledge = ∅)
    (hmf : extractMines st.knowledge = ∅) :
    unmarkedCard (roundStep st) = unmarkedCard st := by
  unfold unmarkedCard
  rw [roundStep_safes, roundStep_mines, hsf, hmf, Finset.union_empty, Finset.union_empty]
  rfl

/-- Every round of `update_knowledge` on a consistent, domain-respecting
state either marks a fresh cell or derives a never-before-seen sentence of
the finite universe, so the loop exits within
`unmarkedCells + (|Universe| - |seen|) + 1` rounds. -/
theorem loop_terminates {M : Finset Cell} (n : Nat) :
    ∀ (st : AIState) (V : Finset Sentence),
      KBConsistent M st → KBDomOk st → SeenInv M st V →
      unmarkedCard st + ((Universe M st.height st.width).card - V.card) + 1 ≤ n →
      (updateLoopT n st).isSome := by
  induction n with
  | zero =>
    intro st V _ _ _ hfuel
    exact absurd hfuel (by omega)
  | succ n ih =>
    intro st V hcons hdom hseen hfuel
    rw [updateLoopT]
    by_cases hc : roundChanged st
    · rw [if_pos hc]
      have hcons' := roundStep_consistent (M := M) hcons
      have hdom' := roundStep_domok hdom
      have hseen' := seenInv_roundStep (M := M) hseen
      have hVsub : V ⊆ V ∪ ((roundStep st).knowledge.toFinset ∩
          Universe M st.height st.width) := Finset.subset_union_left
      have hV'U : V ∪ ((roundStep st).knowledge.toFinset ∩
          Universe M st.height st.width) ⊆ Universe M st.height st.width := hseen'.1
      by_cases hmark : extractSafes st.knowledge ≠ ∅ ∨ extractMines st.knowledge ≠ ∅
      · have hA := unmarked_decrease hdom hmark
        refine ih (roundStep st) _ hcons' hdom' hseen' ?_
        show unmarkedCard (roundStep st) + ((Universe M st.height st.width).card -
          (V ∪ ((roundStep st).knowledge.toFinset ∩
            Universe M st.height st.width)).card) + 1 ≤ n
        have h1 := Finset.card_le_card hVsub
        omega
      · push_neg at hmark
        obtain ⟨hsf, hmf⟩ := hmark
        have hc' : extractSafes st.knowledge ≠ ∅ ∨ extractMines st.knowledge ≠ ∅ ∨
            roundInfer st ≠ [] := hc
        have hni : roundInfer st ≠ [] := by
          rcases hc' with h' | h' | h'
          · exact absurd hsf h'
          · exact absurd hmf h'
          · exact h'
        obtain ⟨x, hx⟩ := List.exists_mem_of_ne_nil _ hni
        have hxK : x ∈ inferStep st.knowledge := by
          rw [roundInfer, postMark_id hsf hmf] at hx
          exact hx
        obtain ⟨hxU, hxnot, hxne, hxlive⟩ := inferStep_universe hcons hdom hxK
        have hxst' : x ∈ (roundStep st).knowledge := by
          rw [roundStep_knowledge, List.mem_filter]
          refine ⟨List.mem_append_right _ ?_, by simpa using hxne⟩
          rw [roundInfer, postMark_id hsf hmf]
          exact hxK
        have hxV' : x ∈ V ∪ ((roundStep st).knowledge.toFinset ∩
            Universe M st.height st.width) :=
          Finset.mem_union_right _
            (Finset.mem_inter.mpr ⟨List.mem_toFinset.mpr hxst', hxU⟩)
        have hxV : x ∉ V := by
          intro hxv
          rcases hseen.2.2 x hxv with hk | hd
          · exact hxnot hk
          · obtain ⟨c, hcx, hcm⟩ := hd
            rcases hcm with h'' | h''
            · exact (hxlive c hcx).1 h''
            · exact (hxlive c hcx).2 h''
        have hlt : V.card < (V ∪ ((roundStep st).knowledge.toFinset ∩
            Universe M st.height st.width)).card :=
          Finset.card_lt_card ((Finset.ssubset_iff_of_subset hVsub).mpr ⟨x, hxV', hxV⟩)
        have hcardU := Finset.card_le_card hV'U
        have hA : unmarkedCard (roundStep st) = unmarkedCard st := unmarked_of_pure hsf hmf
        refine ih (roundStep st) _ hcons' hdom' hseen' ?_
        show unmarkedCard (roundStep st) + ((Universe M st.height st.width).card -
          (V ∪ ((roundStep st).knowledge.toFinset ∩
            Universe M st.height st.width)).card) + 1 ≤ n
        omega
    · rw [if_neg hc]
      rfl

/-- C6: on every state reachable under the consistent-observation driver
contract over a grid with `height × width ≤ 64`, `propagate()` terminates,
within `height × width` plus the number of derivable constraints (the finite
universe of board-true sentences) rounds. -/
theorem claim_C6 {M : Finset Cell} {st : AIState} (hr : Reachable M st)
    (hh : 0 < st.height) (hw : 0 < st.width) (hsize : st.height * st.width ≤ 64) :
    (updateLoopT ((st.height * st.width).toNat +
      (Universe M st.height st.width).card) st).isSome := by
  obtain ⟨hcons, hdom⟩ := reachable_inv hr
  have hgridcard : (gridCells st.height st.width).card = (st.height * st.width).toNat := by
    unfold gridCells
    rw [Finset.card_product, Int.card_Icc, Int.card_Icc]
    have h1 : st.height - 1 + 1 - 0 = st.height := by ring
    have h2 : st.width - 1 + 1 - 0 = st.width := by ring
    rw [h1, h2]
    have h3 : ((st.height.toNat * st.width.toNat : ℕ) : ℤ) = st.height * st.width := by
      push_cast
      rw [Int.toNat_of_nonneg hh.le, Int.toNat_of_nonneg hw.le]
    omega
  have hA : unmarkedCard st ≤ (st.height * st.width).toNat := by
    rw [← hgridcard]
    exact Finset.card_le_card (Finset.sdiff_subset)
  have hseen : SeenInv M st (st.knowledge.toFinset ∩ Universe M st.height st.width) := by
    refine ⟨Finset.inter_subset_right, ?_, ?_⟩
    · intro s hs hsU
      exact Finset.mem_inter.mpr ⟨List.mem_toFinset.mpr hs, hsU⟩
    · intro v hv
      exact Or.inl (List.mem_toFinset.mp (Finset.mem_inter.mp hv).1)
  by_cases hcase : unmarkedCard st + ((Universe M st.height st.width).card -
      (st.knowledge.toFinset ∩ Universe M st.height st.width).card) + 1 ≤
      (st.height * st.width).toNat + (Universe M st.height st.width).card
  · exact loop_terminates _ st _ hcons hdom hseen hcase
  · have hV0U : (st.knowledge.toFinset ∩ Universe M st.height st.width).card ≤
        (Universe M st.height st.width).card :=
      Finset.card_le_card Finset.inter_subset_right
    have hV0card : (st.knowledge.toFinset ∩ Universe M st.height st.width).card = 0 := by
      omega
    have hV0empty : st.knowledge.toFinset ∩ Universe M st.height st.width = ∅ :=
      Finset.card_eq_zero.mp hV0card
    have hallempty : ∀ s ∈ st.knowledge, s.cells = ∅ := by
      intro s hs
      by_contra hne
      have hsU : s ∈ Universe M st.height st.width :=
        mem_Universe.mpr ⟨(hdom s hs).1, hne, hcons.1 s hs⟩
      have hmem : s ∈ st.knowledge.toFinset ∩ Universe M st.height st.width :=
        Finset.mem_inter.mpr ⟨List.mem_toFinset.mpr hs, hsU⟩
      rw [hV0empty] at hmem
      exact Finset.not_mem_empty s hmem
    have hsf : extractSafes st.knowledge = ∅ := by
      rw [Finset.eq_empty_iff_forall_not_mem]
      intro c hcmem
      obtain ⟨s, hs, hcs⟩ := extractSafes_sub_cells hcmem
      rw [hallempty s hs] at hcs
      exact Finset.not_mem_empty c hcs
    have hmf : extractMines st.knowledge = ∅ := by
      rw [Finset.eq_empty_iff_forall_not_mem]
      intro c hcmem
      obtain ⟨s, hs, hcs⟩ := extractMines_sub_cells hcmem
      rw [hallempty s hs] at hcs
      exact Finset.not_mem_empty c hcs
    have hni : roundInfer st = [] := by
      rw [roundInfer, postMark_id hsf hmf]
      rw [List.eq_nil_iff_forall_not_mem]
      intro x hx
      obtain ⟨-, s1, hs1, -, -, -, h1e, -⟩ := inferStep_mem hx
      exact h1e (hallempty s1 hs1)
    have hnc : ¬ roundChanged st := by
      intro hcon
      have hc' : extractSafes st.knowledge ≠ ∅ ∨ extractMines st.knowledge ≠ ∅ ∨
          roundInfer st ≠ [] := hcon
      rcases hc' with h' | h' | h'
      · exact h' hsf
      · exact h' hmf
      · exact h' hni
    have hpos : 1 ≤ (st.height * st.width).toNat +
        (Universe M st.height st.width).card := by
      have := mul_pos hh hw
      omega
    obtain ⟨k, hk⟩ : ∃ k, (st.height * st.width).toNat +
        (Universe M st.height st.width).card = k + 1 :=
      ⟨(st.height * st.width).toNat + (Universe M st.height st.width).card - 1, by omega⟩
    rw [hk, updateLoopT, if_neg hnc]
    rfl

/-- Witness for `claim_C6`: the loop on a fresh 2×2 agent with an empty
board completes within the stated bound. -/
theorem claim_C6_wit :
    (updateLoopT (((initState 2 2).height * (initState 2 2).width).toNat +
      (Universe ∅ (initState 2 2).height (initState 2 2).width).card)
      (initState 2 2)).isSome :=
  claim_C6 (M := ∅) (Reachable.init 2 2) (by decide) (by decide) (by decide)
